import Mathlib

/-!
Verification of the slhack engine core: the scene animation state machine
(`src/slhack/src/scene.rs`), the A* navigation solver (`src/src/astar.rs`),
the navmesh construction (`get_navmesh` in `src/slhack/src/scene.rs`) and the
G-buffer creation (`src/slhack/src/deferred.rs`).

Modelling conventions:
* `f32` / `f64` scalars are modelled as `ℚ`.  The concrete inputs used by the
  witnesses and counterexamples are chosen so that every floating-point
  operation the source performs on them is exact, so the rational trace
  coincides with the floating-point trace.
* Rust panics (slice index out of bounds, `Option::unwrap` on `None`,
  `HashMap` index on a missing key) are modelled by `Option.none` results.
* Unbounded `loop`s are modelled with explicit fuel; a fuel-exhausted run also
  returns `none`.  The fuel chosen for `advance_state` is provably larger than
  the number of iterations the source loop can make.
* Rotation values (`UnitQuaternion<f32>`) are never inspected by the verified
  claims; they are kept as an opaque type parameter `ρ`, with the
  transcendental `slerp` passed in as a function parameter.
-/

namespace Scene

/-- A 3-d vector / point with rational coordinates, modelling
`Point3<f32>` / `Vector3<f32>`. -/
structure V3 where
  x : ℚ
  y : ℚ
  z : ℚ
deriving DecidableEq, Repr

/-- Componentwise sum, modelling `Point3 + Vector3` / `Vector3 + Vector3`. -/
def V3.add (a b : V3) : V3 := ⟨a.x + b.x, a.y + b.y, a.z + b.z⟩

/-- Componentwise difference, modelling `Point3 - Point3` etc. -/
def V3.sub (a b : V3) : V3 := ⟨a.x - b.x, a.y - b.y, a.z - b.z⟩

/-- Scalar multiple, modelling `f32 * Vector3`. -/
def V3.smul (f : ℚ) (a : V3) : V3 := ⟨f * a.x, f * a.y, f * a.z⟩

/-- `Animation` from scene.rs: per-track keyframe lists plus the precomputed
`start`/`end` timestamps (`end` is a Lean keyword, hence `end_`).  The
rotation value type is an opaque parameter `ρ`. -/
structure Animation (ρ : Type) where
  start : ℚ
  end_ : ℚ
  pos_track : List (ℚ × V3)
  rot_track : List (ℚ × ρ)
  scale_track : List (ℚ × V3)

/-- `AnimationState` from scene.rs, field for field. -/
structure AnimationState where
  animation_name : String
  new_animation_name : String
  animation_progress : ℚ
  pos_frame_idx : Int
  rot_frame_idx : Int
  scale_frame_idx : Int
  once : Bool
  num_loops : Int
  need_reset : Bool
  done : Bool
deriving DecidableEq, Repr

/-- `AnimationState::new(animation_name, once)`. -/
def AnimationState.new (animation_name : String) (once : Bool) : AnimationState :=
  { animation_name := animation_name
    new_animation_name := animation_name
    animation_progress := 0
    once := once
    pos_frame_idx := 0
    rot_frame_idx := 0
    scale_frame_idx := 0
    num_loops := 0
    need_reset := false
    done := false }

/-- The slice of `Object` that the animation claims touch: the static base
transform and the animation map (the `HashMap<String, Animation>` is modelled
as an association list with `get` = first match). -/
structure Object (ρ : Type) where
  name : String
  pos : V3
  rot : ρ
  scale : V3
  animations : List (String × Animation ρ)

/-- `HashMap::get` on the association-list model. -/
def mapGet {ρ : Type} (m : List (String × Animation ρ)) (k : String) :
    Option (Animation ρ) :=
  match m with
  | [] => none
  | (k0, v) :: rest => if k0 = k then some v else mapGet rest k

/-- Rust slice indexing `track[i as usize]` where `i : i32`: a negative index
reinterprets as a huge `usize` and panics, an index past the end panics. -/
def getF {α : Type} (l : List α) (i : Int) : Option α :=
  if i < 0 then none else l.get? i.toNat

/-- The position-track cursor advance of the loop body (scene.rs 391-398). -/
def advPos {ρ : Type} (anim : Animation ρ) (st : AnimationState) :
    Option AnimationState :=
  if anim.pos_track.isEmpty = false then do
    let cur ← getF anim.pos_track st.pos_frame_idx
    if st.animation_progress > cur.1 then
      pure { st with
        pos_frame_idx := min (st.pos_frame_idx + 1) (anim.pos_track.length - 1) }
    else pure st
  else pure st

/-- The rotation-track cursor advance of the loop body (scene.rs 399-406). -/
def advRot {ρ : Type} (anim : Animation ρ) (st : AnimationState) :
    Option AnimationState :=
  if anim.rot_track.isEmpty = false then do
    let cur ← getF anim.rot_track st.rot_frame_idx
    if st.animation_progress > cur.1 then
      pure { st with
        rot_frame_idx := min (st.rot_frame_idx + 1) (anim.rot_track.length - 1) }
    else pure st
  else pure st

/-- The scale-track branch of the loop body (scene.rs 407-414), faithfully
keeping the source bug: it tests `scale_track.is_empty()` but reads and
advances the *position* cursor against the *position* track. -/
def advScale {ρ : Type} (anim : Animation ρ) (st : AnimationState) :
    Option AnimationState :=
  if anim.scale_track.isEmpty = false then do
    let cur ← getF anim.pos_track st.pos_frame_idx
    if st.animation_progress > cur.1 then
      pure { st with
        pos_frame_idx := min (st.pos_frame_idx + 1) (anim.pos_track.length - 1) }
    else pure st
  else pure st

/-- The wrap test at the end of the loop body (scene.rs 415-432): count the
crossing (unless already done), then either freeze a one-shot animation or
wrap the progress and reset all cursors. -/
def advWrap {ρ : Type} (anim : Animation ρ) (st : AnimationState) :
    AnimationState :=
  if st.animation_progress > anim.end_ then
    let st4 := if st.done then st else { st with num_loops := st.num_loops + 1 }
    if st4.once then
      { st4 with done := true }
    else
      { st4 with
        pos_frame_idx := 0
        rot_frame_idx := 0
        scale_frame_idx := 0
        animation_progress := st4.animation_progress - anim.end_ }
  else
    st

/-- One iteration of the fixed-point loop body of `Object::advance_state`
(scene.rs lines 385-438, the part before the break test). -/
def advanceBody {ρ : Type} (anim : Animation ρ) (st : AnimationState) :
    Option AnimationState := do
  let st1 ← advPos anim st
  let st2 ← advRot anim st1
  let st3 ← advScale anim st2
  pure (advWrap anim st3)

/-- The `loop { ... }` of `advance_state`: run the body, break when no cursor
changed over the iteration.  Fuel-indexed; fuel exhaustion is `none`. -/
def advanceLoop {ρ : Type} (anim : Animation ρ) : AnimationState → Nat →
    Option AnimationState
  | _, 0 => none
  | st, fuel + 1 => do
    let st1 ← advanceBody anim st
    if st1.pos_frame_idx = st.pos_frame_idx ∧ st1.rot_frame_idx = st.rot_frame_idx ∧
        st1.scale_frame_idx = st.scale_frame_idx then
      pure st1
    else
      advanceLoop anim st1 fuel

/-- Fuel that provably dominates the iteration count of the source loop: the
loop wraps at most twice (a wrap resets all cursors to 0, so a second wrap
iteration starting from all-zero cursors is detected as a fixed point), and
every non-wrap iteration strictly advances some bounded cursor. -/
def advanceFuel {ρ : Type} (anim : Animation ρ) : Nat :=
  anim.pos_track.length + anim.rot_track.length + anim.scale_track.length + 8

/-- `Object::advance_state(state, amount)` from scene.rs lines 363-440.
Returns the new state (`none` models a panic: missing animation name, or an
out-of-bounds track read in the buggy scale branch). -/
def advance_state {ρ : Type} (obj : Object ρ) (st : AnimationState) (amount : ℚ) :
    Option AnimationState := do
  let st := { st with num_loops := 0 }
  let reset_activations :=
    st.animation_name ≠ st.new_animation_name ∨ st.need_reset
  let anim ← mapGet obj.animations st.animation_name
  let st :=
    if reset_activations then
      { st with
        animation_name := st.new_animation_name
        pos_frame_idx := 0
        rot_frame_idx := 0
        scale_frame_idx := 0
        animation_progress := 0
        need_reset := false
        done := false }
    else st
  let st := { st with animation_progress := st.animation_progress + amount }
  advanceLoop anim st (advanceFuel anim)

/-- `Object::get_animation_position(state)` from scene.rs lines 227-296.
`slerpFn` models the transcendental quaternion `slerp`. -/
def get_animation_position {ρ : Type} (slerpFn : ρ → ρ → ℚ → ρ)
    (obj : Object ρ) (st : AnimationState) : Option (V3 × ρ × V3) := do
  let anim ← mapGet obj.animations st.animation_name
  let pos ←
    if anim.pos_track.isEmpty then pure obj.pos
    else do
      let cur ← getF anim.pos_track st.pos_frame_idx
      if st.pos_frame_idx + 1 ≥ anim.pos_track.length then pure cur.2
      else do
        let next ← getF anim.pos_track (st.pos_frame_idx + 1)
        let f := (st.animation_progress - cur.1) / (next.1 - cur.1)
        pure (V3.add cur.2 (V3.smul f (V3.sub next.2 cur.2)))
  let rot ←
    if anim.rot_track.isEmpty then pure obj.rot
    else do
      let cur ← getF anim.rot_track st.rot_frame_idx
      if st.rot_frame_idx + 1 ≥ anim.rot_track.length then pure cur.2
      else do
        let next ← getF anim.rot_track (st.rot_frame_idx + 1)
        let f := (st.animation_progress - cur.1) / (next.1 - cur.1)
        pure (slerpFn cur.2 next.2 f)
  let scale ←
    if anim.scale_track.isEmpty then pure obj.scale
    else do
      let cur ← getF anim.scale_track st.scale_frame_idx
      if st.scale_frame_idx + 1 ≥ anim.scale_track.length then pure cur.2
      else do
        let next ← getF anim.scale_track (st.scale_frame_idx + 1)
        let f := (st.animation_progress - cur.1) / (next.1 - cur.1)
        pure (V3.add cur.2 (V3.smul f (V3.sub next.2 cur.2)))
  pure (pos, rot, scale)

/-- Trivial slerp stand-in for the unit rotation type used by concrete
instances (the rotation value is never inspected). -/
def slerpU : Unit → Unit → ℚ → Unit := fun _ _ _ => ()

/-- Cursor-position budget of one track for the loop-termination measure. -/
abbrev trackGap (len : ℕ) (idx : Int) : ℕ :=
  if len = 0 then 0 else ((len : Int) - 1 - idx).toNat

/-- Termination measure of the `advance_state` loop in the steady (no-wrap)
regime: the scale cursor is never moved by the loop body (the source's scale
branch moves the position cursor instead), so only the position and rotation
cursors enter the measure. -/
abbrev cursorGap {ρ : Type} (anim : Animation ρ) (st : AnimationState) : ℕ :=
  trackGap anim.pos_track.length st.pos_frame_idx +
    trackGap anim.rot_track.length st.rot_frame_idx

/-- The cursor well-formedness every state reachable through the public API
satisfies: each cursor of a non-empty track is a valid index, and (needed by
the source's buggy scale branch, which reads the position track) a non-empty
scale track comes with a non-empty position track. -/
abbrev Bounds {ρ : Type} (anim : Animation ρ) (st : AnimationState) : Prop :=
  (anim.pos_track.isEmpty = false →
    0 ≤ st.pos_frame_idx ∧ st.pos_frame_idx < (anim.pos_track.length : Int)) ∧
  (anim.rot_track.isEmpty = false →
    0 ≤ st.rot_frame_idx ∧ st.rot_frame_idx < (anim.rot_track.length : Int)) ∧
  (anim.scale_track.isEmpty = false → anim.pos_track.isEmpty = false)

/-- Concrete point `P0 = (0,0,0)` used by the concrete scenarios. -/
def P0 : V3 := ⟨0, 0, 0⟩

/-- Concrete point `P1 = (2,0,0)` used by the concrete scenarios. -/
def P1 : V3 := ⟨2, 0, 0⟩

/-- The two-keyframe animation of the spec's concrete scenario:
`pos_track = [(0,P0), (1,P1)]`, empty rotation/scale tracks, `end = 1`. -/
def midAnim : Animation Unit :=
  { start := 0, end_ := 1, pos_track := [(0, P0), (1, P1)], rot_track := [],
    scale_track := [] }

/-- Object holding `midAnim` under the name `"a"`. -/
def midObj : Object Unit :=
  { name := "o", pos := ⟨9, 9, 9⟩, rot := (), scale := ⟨1, 1, 1⟩,
    animations := [("a", midAnim)] }

/-- Animation exercising the scale branch: a three-keyframe scale track
(timestamps 0, 1, 2) next to a two-keyframe position track (0 and 10),
`end = 10`. -/
def scaleAnim : Animation Unit :=
  { start := 0, end_ := 10, pos_track := [(0, P0), (10, P1)], rot_track := [],
    scale_track := [(0, ⟨1, 1, 1⟩), (1, ⟨2, 2, 2⟩), (2, ⟨3, 3, 3⟩)] }

/-- Object holding `scaleAnim` under the name `"a"`. -/
def scaleObj : Object Unit :=
  { name := "o", pos := P0, rot := (), scale := ⟨1, 1, 1⟩,
    animations := [("a", scaleAnim)] }

end Scene

namespace AStar

/-- The data the generic solver needs about a node type, modelling the `Node`
trait of astar.rs plus the position geometry: `get_pos` and `get_neighbours`
are the trait methods, and `dist a b` models the `f32` Euclidean distance
`(a - b).norm()` (kept abstract because the square root of a rational is not
rational; witnesses use collinear points, where the floating-point norm is
exactly the rational absolute difference). -/
structure Graph (ν π : Type) where
  nodes : List ν
  get_pos : ν → π
  get_neighbours : ν → List Int
  dist : π → π → ℚ

/-- Rust slice indexing by an `i32` cast to `usize` (negative or too-large
panics, modelled as `none`). -/
def getF {α : Type} (l : List α) (i : Int) : Option α :=
  if i < 0 then none else l.get? i.toNat

/-- In-place update `l[i] = a`; in the solver every write is preceded by a
read of the same cell, so the out-of-range case never fires on a run that has
not already panicked. -/
def setF {α : Type} (l : List α) (i : Int) (a : α) : List α :=
  if i < 0 then l else l.set i.toNat a

/-- `AStarContext::heuristic(from, to)`: Euclidean distance between the two
node positions. -/
def heuristic {ν π : Type} (G : Graph ν π) (i j : Int) : Option ℚ := do
  let a ← getF G.nodes i
  let b ← getF G.nodes j
  pure (G.dist (G.get_pos a) (G.get_pos b))

/-- One step of the `pos_to_idx` linear scan: compare the distance of the
next node against the best so far (`none` = the initial `f32::INFINITY`). -/
def posToIdxStep {ν π : Type} (G : Graph ν π) (pos : π)
    (acc : Option Int × Option ℚ × Int) (node : ν) : Option Int × Option ℚ × Int :=
  let (best_idx, best_distance, i) := acc
  let d := G.dist pos (G.get_pos node)
  match best_distance with
  | none => (some i, some d, i + 1)
  | some b =>
    if d < b then (some i, some d, i + 1) else (best_idx, best_distance, i + 1)

/-- `AStarContext::pos_to_idx(pos)`: linear scan for the node nearest `pos`;
`best_distance` starts at `f32::INFINITY`, modelled by `none`. -/
def pos_to_idx {ν π : Type} (G : Graph ν π) (pos : π) : Option Int :=
  (G.nodes.foldl (posToIdxStep G pos) (none, none, 0)).1

/-- `AStarContext::idx_to_pos(idx)`. -/
def idx_to_pos {ν π : Type} (G : Graph ν π) (i : Int) : Option π :=
  (getF G.nodes i).map G.get_pos

/-- Pop of the `BinaryHeap<NodeAndScore>` min-heap: removes an element with
the least `f_score`.  The heap's tie order is unspecified in the source
(`partial_cmp` on equal keys is an arbitrary heap order); the model
deterministically takes the first minimal element. -/
def popMin : List (Int × ℚ) → Option ((Int × ℚ) × List (Int × ℚ))
  | [] => none
  | a :: rest =>
    match popMin rest with
    | none => some (a, [])
    | some (m, rest1) =>
      if a.2 ≤ m.2 then some (a, rest) else some (m, a :: rest1)

/-- Search state threaded through the relaxation loop: best heuristic seen by
an improving relaxation, its node (or -1), predecessor array, g-scores, open
set. -/
structure SearchState where
  best_score : ℚ
  best_idx : Int
  came_from : List Int
  cost : List ℚ
  openSet : List (Int × ℚ)

/-- The `for next_idx in neighbours` relaxation loop body of
`AStarContext::solve` (astar.rs lines 151-172). -/
def relaxAll {ν π : Type} (G : Graph ν π) (cost_fn : ν → ν → ℚ) (to_idx : Int)
    (cur_idx : Int) (curNode : ν) : List Int → SearchState → Option SearchState
  | [], s => some s
  | next_idx :: restNs, s => do
    let nextNode ← getF G.nodes next_idx
    let cCur ← getF s.cost cur_idx
    let new_cost := cCur + cost_fn curNode nextNode
    let cNext ← getF s.cost next_idx
    if new_cost < cNext then do
      let new_heuristic ← heuristic G next_idx to_idx
      let s1 :=
        if new_heuristic < s.best_score then
          { s with best_score := new_heuristic, best_idx := next_idx }
        else s
      let s2 :=
        { s1 with
          came_from := setF s1.came_from next_idx cur_idx
          cost := setF s1.cost next_idx new_cost
          openSet := s1.openSet ++ [(next_idx, new_cost + new_heuristic)] }
      relaxAll G cost_fn to_idx cur_idx curNode restNs s2
    else
      relaxAll G cost_fn to_idx cur_idx curNode restNs s

/-- Path reconstruction: walk `came_from` from `cur` back to `from_idx`,
pushing each predecessor's position (astar.rs lines 136-148 and 179-191).
Fuel-indexed: a cycle in `came_from` diverges in the source and exhausts the
fuel here. -/
def reconstruct {ν π : Type} (G : Graph ν π) (came_from : List Int)
    (from_idx : Int) : Int → Nat → Option (List π)
  | _, 0 => none
  | cur, fuel + 1 => do
    let cur1 ← getF came_from cur
    let p ← idx_to_pos G cur1
    if cur1 = from_idx then pure [p]
    else do
      let rest ← reconstruct G came_from from_idx cur1 fuel
      pure (p :: rest)

/-- The `while !open_set.is_empty()` loop of `AStarContext::solve`, fuel per
iteration, plus the post-loop `best_idx_so_far` fallback (astar.rs lines
127-196). -/
def solveLoop {ν π : Type} (G : Graph ν π) (cost_fn : ν → ν → ℚ)
    (from_idx to_idx : Int) (toPt : π) (rfuel : Nat) :
    SearchState → Nat → Option (List π)
  | _, 0 => none
  | s, fuel + 1 =>
    match popMin s.openSet with
    | none =>
      if s.best_idx > -1 then do
        let p ← idx_to_pos G s.best_idx
        let rest ← reconstruct G s.came_from from_idx s.best_idx rfuel
        pure (p :: rest)
      else
        pure []
    | some (cur, rest) =>
      if cur.1 = to_idx then do
        let tail ← reconstruct G s.came_from from_idx to_idx rfuel
        pure (toPt :: tail)
      else do
        let curNode ← getF G.nodes cur.1
        let s1 ←
          relaxAll G cost_fn to_idx cur.1 curNode (G.get_neighbours curNode)
            { s with openSet := rest }
        solveLoop G cost_fn from_idx to_idx toPt rfuel s1 fuel

/-- `AStarContext::solve(from, to, cost_fn)` (astar.rs lines 102-197).
Returns the path in reverse (goal-to-start) order; the first element of a
successful search is the raw query point `to`, not the snapped node position.
`none` models a panic (the `unwrap` of `pos_to_idx` on an empty node slice)
or fuel exhaustion. -/
def solve {ν π : Type} (G : Graph ν π) (fromPt toPt : π) (cost_fn : ν → ν → ℚ)
    (fuel rfuel : Nat) : Option (List π) := do
  let from_idx ← pos_to_idx G fromPt
  let _toIdx0 ← pos_to_idx G toPt
  let n := G.nodes.length
  let came_from0 := List.replicate n (-1 : Int)
  let cost0 := List.replicate n (1000000 : ℚ)
  let h0 ← heuristic G from_idx from_idx
  let came_from1 := setF came_from0 from_idx from_idx
  let cost1 := setF cost0 from_idx h0
  let open1 := [(from_idx, h0)]
  let to_idx ← pos_to_idx G toPt
  let bs0 ← heuristic G from_idx to_idx
  solveLoop G cost_fn from_idx to_idx toPt rfuel
    { best_score := bs0, best_idx := -1, came_from := came_from1, cost := cost1,
      openSet := open1 } fuel

/-- Edge relation of the solver's graph: `j` is listed among the neighbours
of the (valid) node at `i`. -/
def Edge {ν π : Type} (G : Graph ν π) (i j : Int) : Prop :=
  ∃ node, getF G.nodes i = some node ∧ j ∈ G.get_neighbours node

/-- Reachability along neighbour edges, i.e. membership of the start node's
graph component. -/
inductive Reach {ν π : Type} (G : Graph ν π) (i : Int) : Int → Prop
  | refl : Reach G i i
  | step {j k : Int} : Reach G i j → Edge G j k → Reach G i k

/-- Predecessor-array invariant of the search: a defined (nonnegative)
predecessor entry proves both its position and its value reachable from the
start node. -/
def CFInv {ν π : Type} (G : Graph ν π) (from_idx : Int) (cf : List Int) : Prop :=
  ∀ x v, getF cf x = some v → 0 ≤ v → Reach G from_idx x ∧ Reach G from_idx v

/-- Open-set invariant: every queued index has a defined predecessor. -/
def OpenInv (cf : List Int) (openS : List (Int × ℚ)) : Prop :=
  ∀ e ∈ openS, ∃ v, getF cf e.1 = some v ∧ 0 ≤ v

/-- Best-so-far invariant: either still the sentinel `-1` with the start's
heuristic, or a reachable node whose heuristic-to-goal equals the tracked
score, strictly below the start's heuristic. -/
def BestInv {ν π : Type} (G : Graph ν π) (from_idx : Int) (toPos : π)
    (h0 : ℚ) (bs : ℚ) (bi : Int) : Prop :=
  (bi = -1 ∧ bs = h0) ∨
  (0 ≤ bi ∧ Reach G from_idx bi ∧
    (∃ node, getF G.nodes bi = some node ∧ bs = G.dist (G.get_pos node) toPos) ∧
    bs < h0)

/-- The full loop invariant of `solve`'s search state. -/
def StateInv {ν π : Type} (G : Graph ν π) (from_idx : Int) (toPos : π)
    (h0 : ℚ) (s : SearchState) : Prop :=
  s.came_from.length = G.nodes.length ∧
  CFInv G from_idx s.came_from ∧
  OpenInv s.came_from s.openSet ∧
  BestInv G from_idx toPos h0 s.best_score s.best_idx

/-- What the amended C4 claims about a returned path when the goal is
unreachable: every element is the position of a node in the start's
component, and a non-empty path starts (i.e. ends after the caller's
reversal) at a component node strictly closer to the goal, by heuristic
distance, than the start node is. -/
def PathOk {ν π : Type} (G : Graph ν π) (from_idx : Int) (toPos : π) (h0 : ℚ)
    (path : List π) : Prop :=
  (∀ p ∈ path, ∃ i node, Reach G from_idx i ∧ getF G.nodes i = some node ∧
    p = G.get_pos node) ∧
  (path ≠ [] → ∃ i node, Reach G from_idx i ∧ getF G.nodes i = some node ∧
    path.head? = some (G.get_pos node) ∧ G.dist (G.get_pos node) toPos < h0)

/-- Concrete node type for witnesses: nodes on the x-axis, where the `f32`
Euclidean distance is exactly `|x₁ - x₂|`. -/
structure LineNode where
  x : ℚ
  ns : List Int
deriving DecidableEq, Repr

/-- Graph over `LineNode`s with the exact collinear Euclidean distance. -/
def lineGraph (nodes : List LineNode) : Graph LineNode ℚ :=
  { nodes := nodes
    get_pos := LineNode.x
    get_neighbours := LineNode.ns
    dist := fun a b => |a - b| }

/-- Two-component witness graph: component `{0, 1}` (positions 0 and -1,
mutual neighbours) and the isolated node `2` at position 5.  Node 1 is
farther from the goal node 2 than the start node 0 is, so no relaxation ever
improves `best_score_so_far`. -/
def twoCompNodes : List LineNode :=
  [⟨0, [1]⟩, ⟨-1, [0]⟩, ⟨5, []⟩]

/-- Complete two-node witness graph on the x-axis (positions 0 and 1). -/
def twoNodes : List LineNode :=
  [⟨0, [1]⟩, ⟨1, [0]⟩]

/-- Mid-relaxation characterisation of the start node's seed expansion over a
complete graph with uniform edge cost `c`: the start keeps g-score `0` and
itself as predecessor, and every other valid index either has already been
relaxed (g-score `c`, predecessor the start, a queued open-set entry) or
still waits in the remaining neighbour suffix `ns` with the sentinel
g-score `1e6`. -/
def SeedMid {ν π : Type} (G : Graph ν π) (from_idx : Int) (c : ℚ)
    (ns : List Int) (s : SearchState) : Prop :=
  s.came_from.length = G.nodes.length ∧
  s.cost.length = G.nodes.length ∧
  getF s.cost from_idx = some 0 ∧
  getF s.came_from from_idx = some from_idx ∧
  (∀ j : Int, 0 ≤ j → j.toNat < G.nodes.length → j ≠ from_idx →
    ((getF s.cost j = some c ∧ getF s.came_from j = some from_idx ∧
      ∃ f, (j, f) ∈ s.openSet) ∨
     (getF s.cost j = some 1000000 ∧ j ∈ ns))) ∧
  (∀ e ∈ s.openSet, 0 ≤ e.1 ∧ e.1.toNat < G.nodes.length ∧ e.1 ≠ from_idx)

end AStar

namespace Nav

/-- Vertex positions, modelled as rational triples (see the file header). -/
abbrev V3 := ℚ × ℚ × ℚ

/-- `NavNode` from scene.rs.  The welded indices are `i32` in the source but
always the nonnegative welded-array positions, modelled as `ℕ`. -/
structure NavNode where
  pos : V3
  neighbours : List ℕ
deriving DecidableEq, Repr

/-- Truncation toward zero, modelling Rust's `as i32` cast of an `f32`:
`Int.div` is T-division, so `num / den` truncates toward zero. -/
def truncI (q : ℚ) : Int :=
  Int.tdiv q.num (q.den : Int)

/-- The quantized vertex key of `get_navmesh` (scene.rs lines 1116-1122):
each coordinate divided by the tolerance and truncated to an integer. -/
def vtxKey (tol : ℚ) (p : V3) : Int × Int × Int :=
  (truncI (p.1 / tol), truncI (p.2.1 / tol), truncI (p.2.2 / tol))

/-- Welding pass state: key → welded index map (association list, first
insertion wins, deterministic), reversed `new_idxs` and `old_idxs`, next
fresh index. -/
structure WeldState where
  keyMap : List ((Int × Int × Int) × ℕ)
  newIdxsRev : List ℕ
  oldIdxsRev : List ℕ
  cur_idx : ℕ

/-- Association-list lookup for the weld key map. -/
def keyFind (m : List ((Int × Int × Int) × ℕ)) (k : Int × Int × Int) : Option ℕ :=
  match m with
  | [] => none
  | (k0, v) :: rest => if k0 = k then some v else keyFind rest k

/-- One step of the welding fold (scene.rs lines 1127-1137): look the key up,
inserting a fresh welded index on a miss, and record the assignment. -/
def weldStep (tol : ℚ) (s : WeldState) (vtxAndIdx : V3 × ℕ) : WeldState :=
  let key := vtxKey tol vtxAndIdx.1
  match keyFind s.keyMap key with
  | some new_idx => { s with newIdxsRev := new_idx :: s.newIdxsRev }
  | none =>
    { keyMap := (key, s.cur_idx) :: s.keyMap
      newIdxsRev := s.cur_idx :: s.newIdxsRev
      oldIdxsRev := vtxAndIdx.2 :: s.oldIdxsRev
      cur_idx := s.cur_idx + 1 }

/-- The vertex-welding pass: returns `new_idxs` (one welded index per raw
vertex) and `old_idxs` (one representative raw index per welded vertex). -/
def weld (tol : ℚ) (vtxs : List V3) : List ℕ × List ℕ :=
  let s := (vtxs.zip (List.range vtxs.length)).foldl (weldStep tol)
    { keyMap := [], newIdxsRev := [], oldIdxsRev := [], cur_idx := 0 }
  (s.newIdxsRev.reverse, s.oldIdxsRev.reverse)

/-- `idxs.chunks(3)` with the triangle destructured; a trailing partial chunk
makes the source panic at `triangle[1]`/`triangle[2]`, modelled as `none`. -/
def chunks3 : List Int → Option (List (Int × Int × Int))
  | [] => some []
  | a :: b :: c :: rest => do
    let tris ← chunks3 rest
    pure ((a, b, c) :: tris)
  | _ => none

/-- Rust slice indexing `new_idxs[vtx_idx as usize]` with an `i32` index
(negative or out of range panics, modelled as `none`). -/
def getN (l : List ℕ) (i : Int) : Option ℕ :=
  if i < 0 then none else l.get? i.toNat

/-- The welded corner indices of one triangle (`new_idxs[triangle[k]]`);
`none` models the panic on a raw index outside the vertex array. -/
def triWelds (newIdxs : List ℕ) (t : Int × Int × Int) : Option (ℕ × ℕ × ℕ) := do
  let a ← getN newIdxs t.1
  let b ← getN newIdxs t.2.1
  let c ← getN newIdxs t.2.2
  pure (a, b, c)

/-- The accumulated `new_vtx_idx_to_neighbours` entry of welded index `i`
(scene.rs lines 1147-1161): for every triangle and every corner welded to
`i`, the triangle's full welded triple is appended. -/
def entryList (newIdxs : List ℕ) (tris : List (Int × Int × Int)) (i : ℕ) :
    Option (List ℕ) :=
  match tris with
  | [] => some []
  | t :: rest => do
    let (a, b, c) ← triWelds newIdxs t
    let here := (if a = i then [a, b, c] else []) ++
      (if b = i then [a, b, c] else []) ++ (if c = i then [a, b, c] else [])
    let restEntry ← entryList newIdxs rest i
    pure (here ++ restEntry)

/-- `Vec::dedup`: collapse *adjacent* duplicates (the list is sorted first in
the source, so this is full deduplication there). -/
def dedupAdj : List ℕ → List ℕ
  | [] => []
  | [a] => [a]
  | a :: b :: rest => if a = b then dedupAdj (b :: rest) else a :: dedupAdj (b :: rest)

/-- Ordered insertion, the step of the sort model below. -/
def insertSorted (x : ℕ) : List ℕ → List ℕ
  | [] => [x]
  | y :: rest => if x ≤ y then x :: y :: rest else y :: insertSorted x rest

/-- Ascending `Vec::sort` on the neighbour indices (modelled by insertion
sort: any sort produces the same ascending arrangement of these keys). -/
def sortAsc (l : List ℕ) : List ℕ :=
  l.foldr insertSorted []

/-- The per-welded-vertex assembly loop of `get_navmesh` (scene.rs lines
1163-1182).  `k` is the enumeration index (the welded index).  Indexing the
neighbour `HashMap` with a key that was never inserted — a welded vertex in
no triangle, whose accumulated entry here is empty — panics in the source. -/
def buildNodes (vtxs : List V3) (newIdxs : List ℕ) (tris : List (Int × Int × Int))
    (k : ℕ) : List ℕ → Option (List NavNode)
  | [] => some []
  | old_idx :: rest => do
    let raw ← entryList newIdxs tris k
    if raw.isEmpty then none
    else do
      let neighbours := dedupAdj (sortAsc (raw.filter (· ≠ k)))
      let p ← vtxs.get? old_idx
      let node : NavNode := { pos := p, neighbours := neighbours }
      let restNodes ← buildNodes vtxs newIdxs tris (k + 1) rest
      pure (node :: restNodes)

/-- `get_navmesh` (scene.rs lines 1095-1184) restricted to its pure core:
the vertex positions and the index buffer are taken as already read from the
glTF primitive.  `tol = 1e-3` is passed by the caller. -/
def get_navmesh (tol : ℚ) (vtxs : List V3) (idxs : List Int) :
    Option (List NavNode) := do
  let tris ← chunks3 idxs
  buildNodes vtxs (weld tol vtxs).1 tris 0 (weld tol vtxs).2

end Nav

namespace GBuf

/-- The observable backend outcomes `GBuffer::new` branches on: the
framebuffer-completeness status reported after attachment setup, and whether
the full-screen-quad vertex buffer creation succeeds (its failure is met with
`unwrap`, i.e. a panic). -/
structure GlBackend where
  fbComplete : Bool
  vertexBufferOk : Bool

/-- Trace of the GL resource/binding calls `GBuffer::new` makes, in order
(deferred.rs lines 32-154), with just the arguments the claim is about. -/
inductive GlOp
  | genFramebuffers
  | bindFramebuffer (fb : ℕ)
  | genTextures (tex : ℕ)
  | texImage2D (w h : Int)
  | framebufferTexture2D (attachment : ℕ) (tex : ℕ)
  | drawBuffers (attachments : List ℕ)
  | genRenderbuffers (rb : ℕ)
  | renderbufferStorage (w h : Int)
  | framebufferRenderbuffer (rb : ℕ)
  | checkFramebufferStatus
  | createRectVertexBuffer (w h : Int)
deriving DecidableEq, Repr

/-- The fields of the returned `GBuffer` value (the vertex buffer is
represented by its dimensions). -/
structure GBufferModel where
  frame_buffer : ℕ
  position_tex : ℕ
  normal_tex : ℕ
  albedo_tex : ℕ
  light_tex : ℕ
  depth_render_buffer : ℕ
  rect_w : Int
  rect_h : Int
deriving DecidableEq, Repr

/-- A Rust `Result` whose `Err` is the string error type of error.rs. -/
abbrev RustResult (α : Type) := Except String α

/-- The GL trace of one texture setup block: gen+bind+TexImage2D+parameters+
attach (parameters carry no claim-relevant data and are omitted from the
trace). -/
def texBlock (tex attachment : ℕ) (w h : Int) : List GlOp :=
  [GlOp.genTextures tex, GlOp.texImage2D w h,
    GlOp.framebufferTexture2D attachment tex]

/-- `GBuffer::new(display, prim, buffer_width, buffer_height)` (deferred.rs
lines 21-211), as the pair of the emitted GL trace and the outcome.  Object
ids are the driver's fresh handles, modelled as successive numbers.  The
outcome is `none` for the panic (`unwrap` of the quad vertex-buffer
creation), `some (Except.error e)` for the early `Err` return on an
incomplete framebuffer, and `some (Except.ok g)` otherwise. -/
def gBufferNew (backend : GlBackend) (buffer_width buffer_height : Int) :
    List GlOp × Option (RustResult GBufferModel) :=
  let frame_buffer := 1
  let position_tex := 2
  let normal_tex := 3
  let albedo_tex := 4
  let light_tex := 5
  let depth_render_buffer := 6
  let trace0 :=
    [GlOp.genFramebuffers, GlOp.bindFramebuffer frame_buffer] ++
    texBlock position_tex 0 buffer_width buffer_height ++
    texBlock normal_tex 1 buffer_width buffer_height ++
    texBlock albedo_tex 2 buffer_width buffer_height ++
    texBlock light_tex 3 buffer_width buffer_height ++
    [GlOp.drawBuffers [0, 1, 2, 3],
      GlOp.genRenderbuffers depth_render_buffer,
      GlOp.renderbufferStorage buffer_width buffer_height,
      GlOp.framebufferRenderbuffer depth_render_buffer,
      GlOp.checkFramebufferStatus]
  if backend.fbComplete = false then
    (trace0, some (Except.error "Framebuffer not complete"))
  else
    let trace1 := trace0 ++ [GlOp.bindFramebuffer 0,
      GlOp.createRectVertexBuffer buffer_width buffer_height]
    if backend.vertexBufferOk = false then
      (trace1, none)
    else
      (trace1, some (Except.ok
        { frame_buffer := frame_buffer
          position_tex := position_tex
          normal_tex := normal_tex
          albedo_tex := albedo_tex
          light_tex := light_tex
          depth_render_buffer := depth_render_buffer
          rect_w := buffer_width
          rect_h := buffer_height }))

/-- `DeferredRenderer::new` (deferred.rs lines 238-247): propagates the
`GBuffer::new` outcome with `?`. -/
def deferredRendererNew (backend : GlBackend) (width height : Int) :
    Option (RustResult (GBufferModel × Int × Int)) :=
  match (gBufferNew backend width height).2 with
  | none => none
  | some (Except.error e) => some (Except.error e)
  | some (Except.ok g) => some (Except.ok (g, width, height))

end GBuf

/-! ## Theorems -/

section ConcreteEvaluations

set_option allowUnsafeReducibility true

attribute [local semireducible] Rat.add Rat.sub Rat.mul Rat.inv

/-- C1: the claim states that one call to `advance_state` advances each of
the three track cursors past every keyframe of its own track with timestamp
≤ `animation_progress` — in particular the scale cursor according to the
scale track.  The code's scale branch (scene.rs 407-414) instead re-reads and
re-advances the *position* cursor, so on `scaleAnim` (scale keyframes at
timestamps 0, 1, 2) a fresh looping state advanced by `dt = 3/2` ends with
`scale_frame_idx = 0`, although both scale keyframes 0 and 1 have timestamps
≤ 3/2 and the scale cursor ought to be at index 2. -/
theorem claim_C1_scale_cursor_not_advanced :
    (Scene.advance_state Scene.scaleObj (Scene.AnimationState.new "a" false)
        (3 / 2)).map (fun s => (s.pos_frame_idx, s.rot_frame_idx, s.scale_frame_idx)) =
      some (1, 0, 0) ∧
    (Scene.scaleAnim.scale_track.get? 0).map Prod.fst = some 0 ∧
    (Scene.scaleAnim.scale_track.get? 1).map Prod.fst = some 1 ∧
    (0 : ℚ) ≤ 3 / 2 ∧ (1 : ℚ) ≤ 3 / 2 := by
  refine ⟨by decide, by decide, by decide, by norm_num, by norm_num⟩

/-- C2 counterexample: three concrete runs of `advance_state` on `midAnim`
(`end = 1`) violating the claimed interval invariants.  (a) looping, fresh
state, `dt = 1`: the wrap test is strict (`progress > end`), so progress
lands exactly on `end = 1`, outside `[0, end)`.  (b) looping, fresh state,
`dt = 10`: the wrap iteration resets all cursors to 0, which the break test
mistakes for a fixed point, so only one wrap happens and progress ends at
`9 > end`.  (c) one-shot, fresh state, `dt = 5`: `done` becomes true but
progress is left unclamped at `5 ∉ [0, end]`. -/
theorem claim_C2_counterexample :
    ((Scene.advance_state Scene.midObj (Scene.AnimationState.new "a" false) 1).map
        Scene.AnimationState.animation_progress = some 1 ∧
      ¬ ((1 : ℚ) < Scene.midAnim.end_)) ∧
    ((Scene.advance_state Scene.midObj (Scene.AnimationState.new "a" false) 10).map
        Scene.AnimationState.animation_progress = some 9 ∧
      ¬ ((9 : ℚ) ≤ Scene.midAnim.end_)) ∧
    ((Scene.advance_state Scene.midObj (Scene.AnimationState.new "a" true) 5).map
        (fun s => (s.animation_progress, s.done)) = some (5, true) ∧
      ¬ ((5 : ℚ) ≤ Scene.midAnim.end_)) := by
  refine ⟨⟨by decide, by decide⟩, ⟨by decide, by decide⟩, ⟨by decide, by decide⟩⟩

/-- C3: the claim states the loop counter increases across one call by
exactly `⌊(progress_before + dt)/end⌋ - ⌊progress_before/end⌋`.  On `midAnim`
(`end = 1`), a fresh looping state advanced by `dt = 10` should therefore
count 10 loop crossings; the code counts exactly 1 (the wrap resets the
cursors to 0, the break test then reports a fixed point and the loop exits
with progress 9 still above `end`). -/
theorem claim_C3_loop_count_short :
    (Scene.advance_state Scene.midObj (Scene.AnimationState.new "a" false) 10).map
        (fun s => (s.num_loops, s.animation_progress)) = some (1, 9) ∧
    Int.floor (((0 : ℚ) + 10) / Scene.midAnim.end_) -
        Int.floor ((0 : ℚ) / Scene.midAnim.end_) = 10 := by
  refine ⟨by decide, by decide⟩

/-- C5 counterexample.  First run: graph `twoNodes` (complete, positions 0
and 1), query points `A = 0`, `B = 5/4`; the node nearest `B` is node 1 at
position 1, but `solve` returns `[5/4, 0]` — reversed, the path *ends at the
raw query point* `5/4`, not at the nearest node's position 1 (astar.rs line
134 pushes the raw `to`).  Second run: `A = B = 1`: the reversed path is
`[1, 1]`, and its single consecutive pair is not a pair of graph neighbours
(node 1's neighbour list is `[0]`, which does not contain node 1 itself). -/
theorem claim_C5_counterexample :
    (AStar.pos_to_idx (AStar.lineGraph AStar.twoNodes) 0 = some 0 ∧
      AStar.pos_to_idx (AStar.lineGraph AStar.twoNodes) (5 / 4) = some 1 ∧
      AStar.solve (AStar.lineGraph AStar.twoNodes) 0 (5 / 4) (fun _ _ => 1) 10 10 =
        some [5 / 4, 0] ∧
      ((5 / 4 : ℚ) ≠ 1)) ∧
    (AStar.solve (AStar.lineGraph AStar.twoNodes) 1 1 (fun _ _ => 1) 10 10 =
        some [1, 1] ∧
      (AStar.twoNodes.get? 1).map AStar.LineNode.ns = some [0] ∧
      (1 : Int) ∉ [(0 : Int)]) := by
  refine ⟨⟨by decide, by decide, by decide, by decide⟩, by decide, by decide, by decide⟩

/-- C6: the claim states that after `advance_state(dt = 0.5)` on the
two-keyframe animation `pos_track = [(0,P0),(1,P1)]`, `end = 1`, looping,
`get_animation_position` returns the midpoint `(P0+P1)/2`.  The cursor
advance condition `progress > track[cursor].0` overshoots to the *next*
keyframe (index 1), whose successor does not exist, so the code holds and
returns `P1` itself instead of the midpoint. -/
theorem claim_C6_midpoint_not_returned :
    ((Scene.advance_state Scene.midObj (Scene.AnimationState.new "a" false)
          (1 / 2)).bind
        (fun s => Scene.get_animation_position Scene.slerpU Scene.midObj s)).map
      (fun t => t.1) = some Scene.P1 ∧
    Scene.P1 ≠ Scene.V3.smul (1 / 2) (Scene.V3.add Scene.P0 Scene.P1) := by
  refine ⟨by decide, by decide⟩

/-- C7: the claim states `advance_state` with `dt = 0` is idempotent on every
reachable state.  The state reached from a fresh looping state on `midAnim`
by `advance_state(dt = 10)` has progress 9 above `end = 1` (see C2/C3);
each further `dt = 0` call performs one more wrap, so one `dt = 0` call
leaves progress 8 and two calls leave progress 7 — different states. -/
theorem claim_C7_dt0_not_idempotent :
    ((Scene.advance_state Scene.midObj (Scene.AnimationState.new "a" false) 10).bind
        (fun s => Scene.advance_state Scene.midObj s 0)).map
      Scene.AnimationState.animation_progress = some 8 ∧
    (((Scene.advance_state Scene.midObj (Scene.AnimationState.new "a" false) 10).bind
          (fun s => Scene.advance_state Scene.midObj s 0)).bind
        (fun s => Scene.advance_state Scene.midObj s 0)).map
      Scene.AnimationState.animation_progress = some 7 ∧
    (8 : ℚ) ≠ 7 := by
  refine ⟨by decide, by decide, by decide⟩
/-- The linear scan of `pos_to_idx` keeps a `some` best index once it has
one. -/
theorem posToIdx_fold_isSome {ν π : Type} (G : AStar.Graph ν π) (pos : π) :
    ∀ (l : List ν) (acc : Option Int × Option ℚ × Int), acc.1.isSome →
      (l.foldl (AStar.posToIdxStep G pos) acc).1.isSome := by
  intro l
  induction l with
  | nil => intro acc h; simpa using h
  | cons node rest ih =>
    intro acc h
    rcases acc with ⟨best_idx, best_distance, i⟩
    simp only [List.foldl_cons]
    apply ih
    rcases best_distance with _ | b
    · simp [AStar.posToIdxStep]
    · by_cases hd : G.dist pos (G.get_pos node) < b
      · simp [AStar.posToIdxStep, hd]
      · simp only [AStar.posToIdxStep, hd, if_false]
        simpa using h

/-- On a non-empty node list the scan returns some index. -/
theorem pos_to_idx_isSome {ν π : Type} (G : AStar.Graph ν π) (pos : π)
    (h : G.nodes ≠ []) : (AStar.pos_to_idx G pos).isSome := by
  unfold AStar.pos_to_idx
  rcases hn : G.nodes with _ | ⟨node, rest⟩
  · exact absurd hn h
  · simp only [List.foldl_cons]
    apply posToIdx_fold_isSome
    simp [AStar.posToIdxStep]

/-- C10: on an `AStarContext` over an empty node slice, every `solve` call
panics — the nearest-node scan `pos_to_idx` returns `None` (modelled `none`)
and astar.rs line 106 `unwrap`s it — instead of returning an empty path;
conversely, with at least one node the scan always produces an index, so the
`unwrap`s at lines 106-107 cannot panic. -/
theorem claim_C10_empty_graph_panics {ν π : Type} (G : AStar.Graph ν π)
    (fromPt toPt : π) (cost_fn : ν → ν → ℚ) (fuel rfuel : ℕ) :
    (G.nodes = [] →
      AStar.pos_to_idx G fromPt = none ∧
      AStar.solve G fromPt toPt cost_fn fuel rfuel = none) ∧
    (G.nodes ≠ [] → ∃ i, AStar.pos_to_idx G fromPt = some i) := by
  constructor
  · intro h
    have hp : AStar.pos_to_idx G fromPt = none := by
      unfold AStar.pos_to_idx
      rw [h]
      rfl
    refine ⟨hp, ?_⟩
    unfold AStar.solve
    rw [hp]
    rfl
  · intro h
    have := pos_to_idx_isSome G fromPt h
    exact Option.isSome_iff_exists.mp this

/-- Witness for C10 at concrete inputs: the empty graph panics (result
`none`), and on the two-node graph the scan finds an index. -/
theorem claim_C10_empty_graph_panics_witness :
    AStar.solve (AStar.lineGraph []) 0 1 (fun _ _ => 1) 5 5 = none ∧
    (∃ i, AStar.pos_to_idx (AStar.lineGraph AStar.twoNodes) 0 = some i) :=
  ⟨((claim_C10_empty_graph_panics (AStar.lineGraph []) 0 1 (fun _ _ => 1) 5 5).1
      rfl).2,
    (claim_C10_empty_graph_panics (AStar.lineGraph AStar.twoNodes) 0 1
      (fun _ _ => 1) 5 5).2 (by decide)⟩

/-- The isolated node 2 of the two-component witness graph is not reachable
from node 0. -/
theorem twoCompNodes_not_reach :
    ¬ AStar.Reach (AStar.lineGraph AStar.twoCompNodes) 0 2 := by
  intro h
  have key : ∀ x, AStar.Reach (AStar.lineGraph AStar.twoCompNodes) 0 x →
      x = 0 ∨ x = 1 := by
    intro x hx
    induction hx with
    | refl => exact Or.inl rfl
    | step hR hE ih =>
      rcases hE with ⟨node, hnode, hmem⟩
      rcases ih with h0 | h1
      · subst h0
        have : node = ⟨0, [1]⟩ := by
          simpa [AStar.getF, AStar.lineGraph, AStar.twoCompNodes] using hnode.symm
        subst this
        simp only [AStar.lineGraph] at hmem
        right
        simpa using hmem
      · subst h1
        have : node = ⟨-1, [0]⟩ := by
          simpa [AStar.getF, AStar.lineGraph, AStar.twoCompNodes] using hnode.symm
        subst this
        simp only [AStar.lineGraph] at hmem
        left
        simpa using hmem
  rcases key 2 h with h | h <;> simp at h

/-- C4 counterexample: graph `twoCompNodes` has two components, `{0, 1}`
(positions 0 and -1) and `{2}` (position 5); the node nearest `from = 0` is
node 0 and the node nearest `to = 5` is node 2, in different components.  The
only relaxation the search performs reaches node 1, which is *farther* from
the goal than the start is, so `best_idx_so_far` stays `-1` and `solve`
returns the *empty* path — the claim instead promises a non-empty path ending
at the visited node closest to the goal (the start node 0 itself was
visited). -/
theorem claim_C4_counterexample :
    AStar.pos_to_idx (AStar.lineGraph AStar.twoCompNodes) 0 = some 0 ∧
    AStar.pos_to_idx (AStar.lineGraph AStar.twoCompNodes) 5 = some 2 ∧
    ¬ AStar.Reach (AStar.lineGraph AStar.twoCompNodes) 0 2 ∧
    AStar.solve (AStar.lineGraph AStar.twoCompNodes) 0 5 (fun _ _ => 1) 10 10 =
      some [] := by
  refine ⟨by decide, by decide, twoCompNodes_not_reach, by decide⟩

/-- C9: `GBuffer::new` allocates the four colour textures, the depth render
buffer and the framebuffer object, binds draw-buffer attachments 0-3, and
returns `Err` exactly when the backend reports an incomplete framebuffer; on
that error no `GBuffer` value is produced (and `DeferredRenderer::new`
propagates the error).  The trace/outcome pair is `gBufferNew backend w h`. -/
theorem claim_C9_gbuffer_creation (b : GBuf.GlBackend) (w h : Int) :
    ((∃ e, (GBuf.gBufferNew b w h).2 = some (Except.error e)) ↔
      b.fbComplete = false) ∧
    (b.fbComplete = false →
      (∀ g, (GBuf.gBufferNew b w h).2 ≠ some (Except.ok g)) ∧
      GBuf.deferredRendererNew b w h =
        some (Except.error "Framebuffer not complete")) ∧
    GBuf.GlOp.genFramebuffers ∈ (GBuf.gBufferNew b w h).1 ∧
    GBuf.GlOp.genTextures 2 ∈ (GBuf.gBufferNew b w h).1 ∧
    GBuf.GlOp.genTextures 3 ∈ (GBuf.gBufferNew b w h).1 ∧
    GBuf.GlOp.genTextures 4 ∈ (GBuf.gBufferNew b w h).1 ∧
    GBuf.GlOp.genTextures 5 ∈ (GBuf.gBufferNew b w h).1 ∧
    GBuf.GlOp.genRenderbuffers 6 ∈ (GBuf.gBufferNew b w h).1 ∧
    GBuf.GlOp.drawBuffers [0, 1, 2, 3] ∈ (GBuf.gBufferNew b w h).1 ∧
    GBuf.GlOp.checkFramebufferStatus ∈ (GBuf.gBufferNew b w h).1 := by
  rcases b with ⟨fb, vb⟩
  cases fb <;> cases vb <;>
    simp [GBuf.gBufferNew, GBuf.texBlock, GBuf.deferredRendererNew]

/-- Witness for C9: with a backend reporting an incomplete framebuffer the
outcome is the `Err` (and never an `Ok` G-buffer). -/
theorem claim_C9_gbuffer_creation_witness :
    (∃ e, (GBuf.gBufferNew ⟨false, true⟩ 320 200).2 = some (Except.error e)) ∧
    (∀ g, (GBuf.gBufferNew ⟨false, true⟩ 320 200).2 ≠ some (Except.ok g)) :=
  ⟨(claim_C9_gbuffer_creation ⟨false, true⟩ 320 200).1.mpr rfl,
    ((claim_C9_gbuffer_creation ⟨false, true⟩ 320 200).2.1 rfl).1⟩

/-- An in-range `i32` index makes the slice read succeed. -/
theorem getF_isSome {α : Type} (l : List α) (i : Int) (h0 : 0 ≤ i)
    (h1 : i < (l.length : Int)) : ∃ a, Scene.getF l i = some a := by
  have hlt : i.toNat < l.length := by omega
  exact ⟨l.get ⟨i.toNat, hlt⟩, by
    unfold Scene.getF
    rw [if_neg (not_lt.mpr h0)]
    exact List.get?_eq_get hlt⟩

/-- The position branch of the loop body: it only rewrites the position
cursor, monotonically, staying in range, and only when the track is
non-empty. -/
theorem advPos_spec {ρ : Type} (anim : Scene.Animation ρ) (st : Scene.AnimationState)
    (hB : Scene.Bounds anim st) :
    ∃ p, Scene.advPos anim st = some { st with pos_frame_idx := p } ∧
      st.pos_frame_idx ≤ p ∧
      (anim.pos_track.isEmpty = false → 0 ≤ p ∧ p < (anim.pos_track.length : Int)) ∧
      (p ≠ st.pos_frame_idx → anim.pos_track.isEmpty = false) := by
  unfold Scene.advPos
  by_cases hpe : anim.pos_track.isEmpty = false
  · obtain ⟨hge, hlt⟩ := hB.1 hpe
    obtain ⟨cur, hcur⟩ := getF_isSome _ _ hge hlt
    rw [if_pos hpe, hcur]
    by_cases hgt : st.animation_progress > cur.1
    · simp only [Option.bind_eq_bind, Option.some_bind]; rw [if_pos hgt]
      refine ⟨_, rfl, by omega, fun _ => by omega, fun _ => hpe⟩
    · simp only [Option.bind_eq_bind, Option.some_bind]; rw [if_neg hgt]
      exact ⟨st.pos_frame_idx, rfl, le_refl _, fun _ => ⟨hge, hlt⟩,
        fun h => absurd rfl h⟩
  · rw [if_neg hpe]
    exact ⟨st.pos_frame_idx, rfl, le_refl _, fun h => absurd h hpe,
      fun h => absurd rfl h⟩

/-- The rotation branch of the loop body, analogous to `advPos_spec`. -/
theorem advRot_spec {ρ : Type} (anim : Scene.Animation ρ) (st : Scene.AnimationState)
    (hB : Scene.Bounds anim st) :
    ∃ r, Scene.advRot anim st = some { st with rot_frame_idx := r } ∧
      st.rot_frame_idx ≤ r ∧
      (anim.rot_track.isEmpty = false → 0 ≤ r ∧ r < (anim.rot_track.length : Int)) ∧
      (r ≠ st.rot_frame_idx → anim.rot_track.isEmpty = false) := by
  unfold Scene.advRot
  by_cases hre : anim.rot_track.isEmpty = false
  · obtain ⟨hge, hlt⟩ := hB.2.1 hre
    obtain ⟨cur, hcur⟩ := getF_isSome _ _ hge hlt
    rw [if_pos hre, hcur]
    by_cases hgt : st.animation_progress > cur.1
    · simp only [Option.bind_eq_bind, Option.some_bind]; rw [if_pos hgt]
      refine ⟨_, rfl, by omega, fun _ => by omega, fun _ => hre⟩
    · simp only [Option.bind_eq_bind, Option.some_bind]; rw [if_neg hgt]
      exact ⟨st.rot_frame_idx, rfl, le_refl _, fun _ => ⟨hge, hlt⟩,
        fun h => absurd rfl h⟩
  · rw [if_neg hre]
    exact ⟨st.rot_frame_idx, rfl, le_refl _, fun h => absurd h hre,
      fun h => absurd rfl h⟩

/-- The buggy scale branch of the loop body: under the scale-track guard it
rewrites the *position* cursor (monotonically, in the position track's
range); the position track is non-empty whenever it moves anything. -/
theorem advScale_spec {ρ : Type} (anim : Scene.Animation ρ)
    (st : Scene.AnimationState) (hB : Scene.Bounds anim st) :
    ∃ p, Scene.advScale anim st = some { st with pos_frame_idx := p } ∧
      st.pos_frame_idx ≤ p ∧
      (anim.pos_track.isEmpty = false → 0 ≤ p ∧ p < (anim.pos_track.length : Int)) ∧
      (p ≠ st.pos_frame_idx → anim.pos_track.isEmpty = false) := by
  unfold Scene.advScale
  by_cases hse : anim.scale_track.isEmpty = false
  · have hpe := hB.2.2 hse
    obtain ⟨hge, hlt⟩ := hB.1 hpe
    obtain ⟨cur, hcur⟩ := getF_isSome _ _ hge hlt
    rw [if_pos hse, hcur]
    by_cases hgt : st.animation_progress > cur.1
    · simp only [Option.bind_eq_bind, Option.some_bind]; rw [if_pos hgt]
      refine ⟨_, rfl, by omega, fun _ => by omega, fun _ => hpe⟩
    · simp only [Option.bind_eq_bind, Option.some_bind]; rw [if_neg hgt]
      exact ⟨st.pos_frame_idx, rfl, le_refl _, fun _ => ⟨hge, hlt⟩,
        fun h => absurd rfl h⟩
  · rw [if_neg hse]
    refine ⟨st.pos_frame_idx, rfl, le_refl _, fun hpe => hB.1 hpe,
      fun h => absurd rfl h⟩

/-- The wrap step in the steady regime (one-shot animation, or progress at
most `end`): progress, names, flags and all cursors are kept, and `done` is
set exactly on a one-shot crossing. -/
theorem advWrap_steady {ρ : Type} (anim : Scene.Animation ρ)
    (st : Scene.AnimationState)
    (hsteady : st.once = true ∨ st.animation_progress ≤ anim.end_) :
    (Scene.advWrap anim st).animation_progress = st.animation_progress ∧
    (Scene.advWrap anim st).animation_name = st.animation_name ∧
    (Scene.advWrap anim st).new_animation_name = st.new_animation_name ∧
    (Scene.advWrap anim st).need_reset = st.need_reset ∧
    (Scene.advWrap anim st).once = st.once ∧
    (Scene.advWrap anim st).pos_frame_idx = st.pos_frame_idx ∧
    (Scene.advWrap anim st).rot_frame_idx = st.rot_frame_idx ∧
    (Scene.advWrap anim st).scale_frame_idx = st.scale_frame_idx ∧
    (Scene.advWrap anim st).done =
      (st.done || (st.once && decide (anim.end_ < st.animation_progress))) := by
  unfold Scene.advWrap
  by_cases hw : st.animation_progress > anim.end_
  · have honce : st.once = true := by
      rcases hsteady with h | h
      · exact h
      · exact absurd hw (not_lt.mpr h)
    rw [if_pos hw]
    by_cases hdone : st.done
    · rw [if_pos hdone, if_pos honce]
      refine ⟨rfl, rfl, rfl, rfl, rfl, rfl, rfl, rfl, ?_⟩
      simp [hdone]
    · rw [if_neg hdone]
      rw [if_pos (show ({ st with num_loops := st.num_loops + 1 } :
        Scene.AnimationState).once = true from honce)]
      refine ⟨rfl, rfl, rfl, rfl, rfl, rfl, rfl, rfl, ?_⟩
      have hd : st.done = false := by simpa using hdone
      simp [hd, honce, hw]
  · rw [if_neg hw]
    refine ⟨rfl, rfl, rfl, rfl, rfl, rfl, rfl, rfl, ?_⟩
    have : ¬ (anim.end_ < st.animation_progress) := hw
    simp [this]

/-- One loop-body iteration in the steady regime (one-shot animation, or
progress at most `end`): it succeeds, keeps progress/name/reset/once, sets
`done` exactly on a one-shot crossing, moves the position and rotation
cursors monotonically within range, and never touches the scale cursor. -/
theorem advanceBody_steady {ρ : Type} (anim : Scene.Animation ρ)
    (st : Scene.AnimationState) (hB : Scene.Bounds anim st)
    (hsteady : st.once = true ∨ st.animation_progress ≤ anim.end_) :
    ∃ st1, Scene.advanceBody anim st = some st1 ∧
      st1.animation_progress = st.animation_progress ∧
      st1.animation_name = st.animation_name ∧
      st1.new_animation_name = st.new_animation_name ∧
      st1.need_reset = st.need_reset ∧
      st1.once = st.once ∧
      st1.scale_frame_idx = st.scale_frame_idx ∧
      st1.done = (st.done || (st.once && decide (anim.end_ < st.animation_progress))) ∧
      st.pos_frame_idx ≤ st1.pos_frame_idx ∧
      st.rot_frame_idx ≤ st1.rot_frame_idx ∧
      (anim.pos_track.isEmpty = false →
        0 ≤ st1.pos_frame_idx ∧ st1.pos_frame_idx < (anim.pos_track.length : Int)) ∧
      (anim.rot_track.isEmpty = false →
        0 ≤ st1.rot_frame_idx ∧ st1.rot_frame_idx < (anim.rot_track.length : Int)) ∧
      (st1.pos_frame_idx ≠ st.pos_frame_idx → anim.pos_track.isEmpty = false) ∧
      (st1.rot_frame_idx ≠ st.rot_frame_idx → anim.rot_track.isEmpty = false) := by
  obtain ⟨p1, h1, m1, b1, c1⟩ := advPos_spec anim st hB
  have hB1 : Scene.Bounds anim { st with pos_frame_idx := p1 } :=
    ⟨fun hpe => b1 hpe, fun hre => hB.2.1 hre, hB.2.2⟩
  obtain ⟨r2, h2, m2, b2, c2⟩ := advRot_spec anim _ hB1
  have hB2 : Scene.Bounds anim { st with pos_frame_idx := p1, rot_frame_idx := r2 } :=
    ⟨fun hpe => b1 hpe, fun hre => b2 hre, hB.2.2⟩
  obtain ⟨p3, h3, m3, b3, c3⟩ := advScale_spec anim _ hB2
  have hbody : Scene.advanceBody anim st =
      some (Scene.advWrap anim
        { st with pos_frame_idx := p3, rot_frame_idx := r2 }) := by
    unfold Scene.advanceBody
    rw [h1]
    simp only [Option.bind_eq_bind, Option.some_bind]
    rw [h2]
    simp only [Option.some_bind]
    rw [h3]
    simp only [Option.some_bind, Option.pure_def]
  have hmp : st.pos_frame_idx ≤ p3 := le_trans m1 m3
  have hcp : p3 ≠ st.pos_frame_idx → anim.pos_track.isEmpty = false := by
    intro hne
    by_cases h13 : p3 = p1
    · exact c1 (by rw [← h13]; exact hne)
    · exact c3 h13
  obtain ⟨w1, w2, w3, w4, w5, w6, w7, w8, w9⟩ :=
    advWrap_steady anim { st with pos_frame_idx := p3, rot_frame_idx := r2 } hsteady
  refine ⟨_, hbody, w1, w2, w3, w4, w5, w8, w9, ?_, ?_, ?_, ?_, ?_, ?_⟩
  · rw [w6]; exact hmp
  · rw [w7]; exact m2
  · rw [w6]; exact b3
  · rw [w7]; exact b2
  · rw [w6]; exact hcp
  · rw [w7]; exact c2

/-- One non-trivial track keeps its cursor budget at most the track length. -/
theorem trackGap_le {α : Type} (l : List α) (idx : Int)
    (hb : l.isEmpty = false → 0 ≤ idx ∧ idx < (l.length : Int)) :
    Scene.trackGap l.length idx ≤ l.length := by
  cases l with
  | nil => simp [Scene.trackGap]
  | cons a t =>
    have h := hb rfl
    simp only [Scene.trackGap]
    rw [if_neg (by simp)]
    simp only [List.length_cons] at h ⊢
    omega

/-- The loop measure is bounded by the track lengths on any in-bounds state. -/
theorem cursorGap_le {ρ : Type} (anim : Scene.Animation ρ)
    (st : Scene.AnimationState) (hB : Scene.Bounds anim st) :
    Scene.cursorGap anim st ≤ anim.pos_track.length + anim.rot_track.length := by
  have h1 := trackGap_le anim.pos_track st.pos_frame_idx hB.1
  have h2 := trackGap_le anim.rot_track st.rot_frame_idx hB.2.1
  simp only [Scene.cursorGap]
  omega

/-- A monotone in-range cursor move that changes the position or rotation
cursor strictly decreases the loop measure. -/
theorem cursorGap_decrease {ρ : Type} (anim : Scene.Animation ρ)
    (st st1 : Scene.AnimationState) (hB : Scene.Bounds anim st)
    (hp : st.pos_frame_idx ≤ st1.pos_frame_idx)
    (hr : st.rot_frame_idx ≤ st1.rot_frame_idx)
    (hpb : anim.pos_track.isEmpty = false →
      0 ≤ st1.pos_frame_idx ∧ st1.pos_frame_idx < (anim.pos_track.length : Int))
    (hrb : anim.rot_track.isEmpty = false →
      0 ≤ st1.rot_frame_idx ∧ st1.rot_frame_idx < (anim.rot_track.length : Int))
    (hpc : st1.pos_frame_idx ≠ st.pos_frame_idx → anim.pos_track.isEmpty = false)
    (hrc : st1.rot_frame_idx ≠ st.rot_frame_idx → anim.rot_track.isEmpty = false)
    (hchange : ¬ (st1.pos_frame_idx = st.pos_frame_idx ∧
      st1.rot_frame_idx = st.rot_frame_idx)) :
    Scene.cursorGap anim st1 < Scene.cursorGap anim st := by
  have gp : Scene.trackGap anim.pos_track.length st1.pos_frame_idx ≤
      Scene.trackGap anim.pos_track.length st.pos_frame_idx := by
    by_cases hpe : anim.pos_track.isEmpty = false
    · obtain ⟨ha, hb1⟩ := hB.1 hpe
      obtain ⟨hc, hd⟩ := hpb hpe
      have hne : anim.pos_track.length ≠ 0 := by
        cases hl : anim.pos_track with
        | nil => rw [hl] at hpe; simp at hpe
        | cons a t => simp [hl]
      simp only [Scene.trackGap, if_neg hne]
      omega
    · have : anim.pos_track.isEmpty = true := by simpa using hpe
      have : anim.pos_track = [] := by simpa [List.isEmpty_iff] using this
      have h0 : st1.pos_frame_idx = st.pos_frame_idx := by
        by_contra hne
        exact hpe (hpc hne)
      rw [h0]
  have gr : Scene.trackGap anim.rot_track.length st1.rot_frame_idx ≤
      Scene.trackGap anim.rot_track.length st.rot_frame_idx := by
    by_cases hre : anim.rot_track.isEmpty = false
    · obtain ⟨ha, hb1⟩ := hB.2.1 hre
      obtain ⟨hc, hd⟩ := hrb hre
      have hne : anim.rot_track.length ≠ 0 := by
        cases hl : anim.rot_track with
        | nil => rw [hl] at hre; simp at hre
        | cons a t => simp [hl]
      simp only [Scene.trackGap, if_neg hne]
      omega
    · have h0 : st1.rot_frame_idx = st.rot_frame_idx := by
        by_contra hne
        exact hre (hrc hne)
      rw [h0]
  rcases not_and_or.mp hchange with hne | hne
  · have hpe := hpc hne
    obtain ⟨ha, hb1⟩ := hB.1 hpe
    obtain ⟨hc, hd⟩ := hpb hpe
    have hlen : anim.pos_track.length ≠ 0 := by
      cases hl : anim.pos_track with
      | nil => rw [hl] at hpe; simp at hpe
      | cons a t => simp [hl]
    have gps : Scene.trackGap anim.pos_track.length st1.pos_frame_idx <
        Scene.trackGap anim.pos_track.length st.pos_frame_idx := by
      simp only [Scene.trackGap, if_neg hlen]
      omega
    simp only [Scene.cursorGap]
    omega
  · have hre := hrc hne
    obtain ⟨ha, hb1⟩ := hB.2.1 hre
    obtain ⟨hc, hd⟩ := hrb hre
    have hlen : anim.rot_track.length ≠ 0 := by
      cases hl : anim.rot_track with
      | nil => rw [hl] at hre; simp at hre
      | cons a t => simp [hl]
    have grs : Scene.trackGap anim.rot_track.length st1.rot_frame_idx <
        Scene.trackGap anim.rot_track.length st.rot_frame_idx := by
      simp only [Scene.trackGap, if_neg hlen]
      omega
    simp only [Scene.cursorGap]
    omega

/-- The fixed-point loop of `advance_state` in the steady regime terminates
within the fuel, keeps the progress and the flags, and sets `done` exactly on
a one-shot crossing. -/
theorem advanceLoop_steady {ρ : Type} (anim : Scene.Animation ρ) :
    ∀ (fuel : ℕ) (st : Scene.AnimationState), Scene.Bounds anim st →
      (st.once = true ∨ st.animation_progress ≤ anim.end_) →
      Scene.cursorGap anim st < fuel →
      ∃ stF, Scene.advanceLoop anim st fuel = some stF ∧
        stF.animation_progress = st.animation_progress ∧
        stF.animation_name = st.animation_name ∧
        stF.new_animation_name = st.new_animation_name ∧
        stF.need_reset = st.need_reset ∧
        stF.once = st.once ∧
        stF.done = (st.done ||
          (st.once && decide (anim.end_ < st.animation_progress))) := by
  intro fuel
  induction fuel with
  | zero => intro st _ _ hgap; omega
  | succ fuel ih =>
    intro st hB hsteady hgap
    obtain ⟨st1, hbody, hprog, hn1, hn2, hn3, honce, hscale, hdone, hmp, hmr,
      hbp, hbr, hcp, hcr⟩ := advanceBody_steady anim st hB hsteady
    have hB1 : Scene.Bounds anim st1 :=
      ⟨fun hpe => hbp hpe, fun hre => hbr hre, hB.2.2⟩
    unfold Scene.advanceLoop
    rw [hbody]; simp only [Option.bind_eq_bind, Option.some_bind]
    by_cases heq : st1.pos_frame_idx = st.pos_frame_idx ∧
        st1.rot_frame_idx = st.rot_frame_idx ∧
        st1.scale_frame_idx = st.scale_frame_idx
    · rw [if_pos heq]
      exact ⟨st1, rfl, hprog, hn1, hn2, hn3, honce, hdone⟩
    · rw [if_neg heq]
      have hchange : ¬ (st1.pos_frame_idx = st.pos_frame_idx ∧
          st1.rot_frame_idx = st.rot_frame_idx) := by
        intro h
        exact heq ⟨h.1, h.2, hscale⟩
      have hlt := cursorGap_decrease anim st st1 hB hmp hmr hbp hbr hcp hcr hchange
      obtain ⟨stF, hloop, p1, p2, p3, p4, p5, p6⟩ := ih st1 hB1
        (by rcases hsteady with h | h
            · exact Or.inl (honce.trans h)
            · exact Or.inr (by rw [hprog]; exact h))
        (by omega)
      refine ⟨stF, hloop, p1.trans hprog, p2.trans hn1, p3.trans hn2,
        p4.trans hn3, p5.trans honce, ?_⟩
      rw [p6, hdone, honce, hprog]
      cases hd : st.done <;> cases ho : st.once <;> simp

/-- C2 amended: in the steady regime (no pending animation switch or reset,
cursors in range) with `progress_before ∈ [0, ∞)` and `dt ≥ 0`: for a looping
(`once = false`) state, *provided `progress_before + dt ≤ end`*, the call
returns with progress exactly `progress_before + dt`, which lies in the
closed interval `[0, end]` — `end` itself is attainable because the wrap test
is strict, so the claimed half-open `[0, end)` is not; without the
`progress_before + dt ≤ end` proviso the progress can exceed `end` (see the
counterexample).  For a one-shot (`once = true`) state the progress is
*never* clamped: it is exactly `progress_before + dt`, with `done` set as
soon as that exceeds `end` (the end pose is held by cursor clamping, not by
clamping the progress). -/
theorem claim_C2_amended {ρ : Type} (obj : Scene.Object ρ)
    (anim : Scene.Animation ρ) (st : Scene.AnimationState) (dt : ℚ)
    (hanim : Scene.mapGet obj.animations st.animation_name = some anim)
    (hname : st.animation_name = st.new_animation_name)
    (hreset : st.need_reset = false)
    (hB : Scene.Bounds anim st)
    (hdt : 0 ≤ dt) (hp0 : 0 ≤ st.animation_progress) :
    (st.once = false → st.animation_progress + dt ≤ anim.end_ →
      ∃ stF, Scene.advance_state obj st dt = some stF ∧
        stF.animation_progress = st.animation_progress + dt ∧
        0 ≤ stF.animation_progress ∧ stF.animation_progress ≤ anim.end_ ∧
        stF.done = st.done) ∧
    (st.once = true →
      ∃ stF, Scene.advance_state obj st dt = some stF ∧
        stF.animation_progress = st.animation_progress + dt ∧
        stF.done = (st.done ||
          decide (anim.end_ < st.animation_progress + dt))) := by
  have hcond : ¬ (st.animation_name ≠ st.new_animation_name ∨
      st.need_reset = true) := by
    simp [hname, hreset]
  have hstep : Scene.advance_state obj st dt = Scene.advanceLoop anim
      { st with
        num_loops := 0
        animation_progress := st.animation_progress + dt }
      (Scene.advanceFuel anim) := by
    unfold Scene.advance_state
    simp only [Option.bind_eq_bind]
    rw [show Scene.mapGet obj.animations st.animation_name = some anim from hanim]
    simp only [Option.some_bind]
    rw [if_neg hcond]
  have hB2 : Scene.Bounds anim
      { st with
        num_loops := 0
        animation_progress := st.animation_progress + dt } := hB
  have hgap : Scene.cursorGap anim
      { st with
        num_loops := 0
        animation_progress := st.animation_progress + dt } <
      Scene.advanceFuel anim := by
    have := cursorGap_le anim _ hB2
    simp only [Scene.advanceFuel]
    omega
  constructor
  · intro ho hle
    obtain ⟨stF, hloop, q1, _, _, _, _, q6⟩ :=
      advanceLoop_steady anim (Scene.advanceFuel anim)
        { st with
          num_loops := 0
          animation_progress := st.animation_progress + dt }
        hB2 (Or.inr hle) hgap
    refine ⟨stF, by rw [hstep]; exact hloop, q1, ?_, ?_, ?_⟩
    · rw [q1]
      exact add_nonneg hp0 hdt
    · rw [q1]
      exact hle
    · rw [q6]
      simp [ho]
  · intro ho
    obtain ⟨stF, hloop, q1, _, _, _, _, q6⟩ :=
      advanceLoop_steady anim (Scene.advanceFuel anim)
        { st with
          num_loops := 0
          animation_progress := st.animation_progress + dt }
        hB2 (Or.inl ho) hgap
    refine ⟨stF, by rw [hstep]; exact hloop, q1, ?_⟩
    rw [q6]
    simp [ho]

/-- Witness for the amended C2 on the concrete two-keyframe animation: the
looping branch at `dt = 1/2` and the one-shot branch at `dt = 5`. -/
theorem claim_C2_amended_witness :
    (∃ stF, Scene.advance_state Scene.midObj
        (Scene.AnimationState.new "a" false) (1 / 2) = some stF ∧
      stF.animation_progress =
        (Scene.AnimationState.new "a" false).animation_progress + 1 / 2 ∧
      0 ≤ stF.animation_progress ∧
      stF.animation_progress ≤ Scene.midAnim.end_ ∧
      stF.done = (Scene.AnimationState.new "a" false).done) ∧
    (∃ stF, Scene.advance_state Scene.midObj
        (Scene.AnimationState.new "a" true) 5 = some stF ∧
      stF.animation_progress =
        (Scene.AnimationState.new "a" true).animation_progress + 5 ∧
      stF.done = ((Scene.AnimationState.new "a" true).done ||
        decide (Scene.midAnim.end_ <
          (Scene.AnimationState.new "a" true).animation_progress + 5))) :=
  ⟨(claim_C2_amended Scene.midObj Scene.midAnim
      (Scene.AnimationState.new "a" false) (1 / 2) rfl rfl rfl (by decide)
      (by decide) (by decide)).1 rfl (by decide),
    (claim_C2_amended Scene.midObj Scene.midAnim
      (Scene.AnimationState.new "a" true) 5 rfl rfl rfl (by decide)
      (by decide) (by decide)).2 rfl⟩

/-- Membership is preserved by adjacent deduplication. -/
theorem mem_dedupAdj {a : ℕ} : ∀ {l : List ℕ}, a ∈ Nav.dedupAdj l ↔ a ∈ l := by
  intro l
  induction l with
  | nil => simp [Nav.dedupAdj]
  | cons b t ih =>
    cases t with
    | nil => simp [Nav.dedupAdj]
    | cons c t2 =>
      by_cases hbc : b = c
      · rw [Nav.dedupAdj, if_pos hbc]
        rw [ih]
        subst hbc
        simp
      · rw [Nav.dedupAdj, if_neg hbc]
        simp only [List.mem_cons]
        rw [ih]
        simp

/-- Membership is preserved by ordered insertion. -/
theorem mem_insertSorted {a x : ℕ} :
    ∀ {l : List ℕ}, a ∈ Nav.insertSorted x l ↔ a = x ∨ a ∈ l := by
  intro l
  induction l with
  | nil => simp [Nav.insertSorted]
  | cons y rest ih =>
    rw [Nav.insertSorted]
    by_cases hxy : x ≤ y
    · rw [if_pos hxy]
      simp
    · rw [if_neg hxy]
      simp only [List.mem_cons, ih]
      tauto

/-- Membership is preserved by the ascending sort. -/
theorem mem_sortAsc {a : ℕ} : ∀ {l : List ℕ}, a ∈ Nav.sortAsc l ↔ a ∈ l := by
  intro l
  induction l with
  | nil => simp [Nav.sortAsc]
  | cons y rest ih =>
    show a ∈ Nav.insertSorted y (Nav.sortAsc rest) ↔ _
    rw [mem_insertSorted]
    simp only [List.mem_cons]
    rw [ih]

/-- A hit in the weld key map is one of its recorded values. -/
theorem keyFind_mem : ∀ {m : List ((Int × Int × Int) × ℕ)}
    {k : Int × Int × Int} {v : ℕ},
    Nav.keyFind m k = some v → ∃ key, (key, v) ∈ m := by
  intro m
  induction m with
  | nil => intro k v hm; simp [Nav.keyFind] at hm
  | cons kv rest ih =>
    intro k v hm
    rcases kv with ⟨k0, v0⟩
    rw [Nav.keyFind] at hm
    by_cases hk : k0 = k
    · rw [if_pos hk] at hm
      exact ⟨k0, by simp [← Option.some.inj hm]⟩
    · rw [if_neg hk] at hm
      obtain ⟨key, hmem⟩ := ih hm
      exact ⟨key, List.mem_cons_of_mem _ hmem⟩

/-- Invariant of the welding fold: every assigned welded index (in the
output list and in the key map) is below the running fresh index, which
equals the number of representatives recorded so far. -/
theorem weldStep_invariant (tol : ℚ) :
    ∀ (l : List (Nav.V3 × ℕ)) (s : Nav.WeldState),
      (∀ x ∈ s.newIdxsRev, x < s.cur_idx) →
      (∀ kv ∈ s.keyMap, kv.2 < s.cur_idx) →
      s.oldIdxsRev.length = s.cur_idx →
      (∀ x ∈ (l.foldl (Nav.weldStep tol) s).newIdxsRev,
        x < (l.foldl (Nav.weldStep tol) s).cur_idx) ∧
      (l.foldl (Nav.weldStep tol) s).oldIdxsRev.length =
        (l.foldl (Nav.weldStep tol) s).cur_idx := by
  intro l
  induction l with
  | nil => intro s h1 h2 h3; exact ⟨h1, h3⟩
  | cons vp rest ih =>
    intro s h1 h2 h3
    simp only [List.foldl_cons]
    rcases hfind : Nav.keyFind s.keyMap (Nav.vtxKey tol vp.1) with _ | ni
    · have hstep : Nav.weldStep tol s vp =
          { keyMap := (Nav.vtxKey tol vp.1, s.cur_idx) :: s.keyMap
            newIdxsRev := s.cur_idx :: s.newIdxsRev
            oldIdxsRev := vp.2 :: s.oldIdxsRev
            cur_idx := s.cur_idx + 1 } := by
        simp only [Nav.weldStep]
        rw [hfind]
      rw [hstep]
      apply ih
      · intro x hx
        show x < s.cur_idx + 1
        have hx2 : x = s.cur_idx ∨ x ∈ s.newIdxsRev := by
          simpa using hx
        rcases hx2 with h | h
        · omega
        · have := h1 x h
          omega
      · intro kv hkv
        show kv.2 < s.cur_idx + 1
        have hkv2 : kv = (Nav.vtxKey tol vp.1, s.cur_idx) ∨ kv ∈ s.keyMap := by
          simpa using hkv
        rcases hkv2 with h | h
        · rw [h]
          omega
        · have := h2 kv h
          omega
      · show (vp.2 :: s.oldIdxsRev).length = s.cur_idx + 1
        simp [h3]
    · have hni : ni < s.cur_idx := by
        obtain ⟨key, hmem⟩ := keyFind_mem hfind
        exact h2 (key, ni) hmem
      have hstep : Nav.weldStep tol s vp =
          { s with newIdxsRev := ni :: s.newIdxsRev } := by
        simp only [Nav.weldStep]
        rw [hfind]
      rw [hstep]
      apply ih
      · intro x hx
        simp only [List.mem_cons] at hx
        rcases hx with h | h
        · rw [h]
          exact hni
        · exact h1 x h
      · exact h2
      · exact h3

/-- Every welded index the welding pass emits refers to a recorded
representative: it is below the number of welded vertices. -/
theorem weld_newIdxs_lt (tol : ℚ) (vtxs : List Nav.V3) :
    ∀ x ∈ (Nav.weld tol vtxs).1, x < (Nav.weld tol vtxs).2.length := by
  obtain ⟨h1, h3⟩ := weldStep_invariant tol (vtxs.zip (List.range vtxs.length))
    { keyMap := [], newIdxsRev := [], oldIdxsRev := [], cur_idx := 0 }
    (by simp) (by simp) (by simp)
  intro x hx
  unfold Nav.weld at hx ⊢
  simp only [List.mem_reverse] at hx
  simp only [List.length_reverse]
  rw [h3]
  exact h1 x hx

/-- A successful welded-index read returns an element of the list. -/
theorem getN_mem {l : List ℕ} {i : Int} {a : ℕ} (h : Nav.getN l i = some a) :
    a ∈ l := by
  rw [Nav.getN] at h
  by_cases hneg : i < 0
  · rw [if_pos hneg] at h
    simp at h
  · rw [if_neg hneg] at h
    exact List.get?_mem h

/-- The three welded corners of a triangle are emitted welded indices. -/
theorem triWelds_mem {newIdxs : List ℕ} {t : Int × Int × Int} {w : ℕ × ℕ × ℕ}
    (hw : Nav.triWelds newIdxs t = some w) :
    w.1 ∈ newIdxs ∧ w.2.1 ∈ newIdxs ∧ w.2.2 ∈ newIdxs := by
  rw [Nav.triWelds] at hw
  rcases h1 : Nav.getN newIdxs t.1 with _ | a
  · rw [h1] at hw
    simp at hw
  rcases h2 : Nav.getN newIdxs t.2.1 with _ | b
  · rw [h1, h2] at hw
    simp at hw
  rcases h3 : Nav.getN newIdxs t.2.2 with _ | c
  · rw [h1, h2, h3] at hw
    simp at hw
  rw [h1, h2, h3] at hw
  simp only [Option.bind_eq_bind, Option.some_bind, Option.pure_def,
    Option.some.injEq] at hw
  rw [← hw]
  exact ⟨getN_mem h1, getN_mem h2, getN_mem h3⟩

/-- Membership in one triangle's contribution to entry `i`: the triple is
appended (once per matching corner) exactly when `i` is one of the welded
corners. -/
theorem mem_tripleEntry (a b c i j : ℕ) :
    (j ∈ (if a = i then [a, b, c] else []) ++ (if b = i then [a, b, c] else []) ++
      (if c = i then [a, b, c] else [])) ↔
    (i ∈ [a, b, c] ∧ j ∈ [a, b, c]) := by
  by_cases ha : a = i <;> by_cases hb : b = i <;> by_cases hc : c = i <;>
    simp [ha, hb, hc, List.mem_append, List.mem_cons, eq_comm] <;> omega

/-- Characterization of the accumulated neighbour-map entry: `j` is recorded
under key `i` iff some triangle has both `i` and `j` among its welded
corners. -/
theorem mem_entryList {newIdxs : List ℕ} {j : ℕ} :
    ∀ {tris : List (Int × Int × Int)} {i : ℕ} {raw : List ℕ},
      Nav.entryList newIdxs tris i = some raw →
      (j ∈ raw ↔ ∃ t ∈ tris, ∃ w, Nav.triWelds newIdxs t = some w ∧
        i ∈ [w.1, w.2.1, w.2.2] ∧ j ∈ [w.1, w.2.1, w.2.2]) := by
  intro tris
  induction tris with
  | nil =>
    intro i raw h
    rw [Nav.entryList] at h
    have : raw = [] := by simpa using h.symm
    subst this
    simp
  | cons t rest ih =>
    intro i raw h
    rw [Nav.entryList] at h
    rcases hw : Nav.triWelds newIdxs t with _ | w
    · rw [hw] at h
      simp at h
    rcases w with ⟨a, b, c⟩
    rw [hw] at h
    simp only [Option.bind_eq_bind, Option.some_bind] at h
    rcases hrest : Nav.entryList newIdxs rest i with _ | restE
    · rw [hrest] at h
      simp at h
    rw [hrest] at h
    simp only [Option.some_bind, Option.pure_def, Option.some.injEq] at h
    subst h
    constructor
    · intro hj
      rcases List.mem_append.mp hj with hja | hjr
      · obtain ⟨hiw, hjw⟩ := (mem_tripleEntry a b c i j).mp hja
        exact ⟨t, List.mem_cons_self t rest, (a, b, c), hw, hiw, hjw⟩
      · obtain ⟨t2, ht2, w2, hw2, hi2, hj2⟩ := (ih hrest).mp hjr
        exact ⟨t2, List.mem_cons_of_mem t ht2, w2, hw2, hi2, hj2⟩
    · rintro ⟨t2, ht2, w2, hw2, hi2, hj2⟩
      rcases List.mem_cons.mp ht2 with rfl | ht3
      · rw [hw] at hw2
        have : (a, b, c) = w2 := Option.some.inj hw2
        rw [← this] at hi2 hj2
        exact List.mem_append.mpr (Or.inl ((mem_tripleEntry a b c i j).mpr
          ⟨hi2, hj2⟩))
      · exact List.mem_append.mpr (Or.inr ((ih hrest).mpr
          ⟨t2, ht3, w2, hw2, hi2, hj2⟩))

/-- Characterization of a successful `buildNodes` run: one node per
representative, whose neighbour list is the sorted, deduplicated,
self-filtered accumulated entry of its welded index. -/
theorem buildNodes_spec (vtxs : List Nav.V3) (newIdxs : List ℕ)
    (tris : List (Int × Int × Int)) :
    ∀ (olds : List ℕ) (k : ℕ) (nodes : List Nav.NavNode),
      Nav.buildNodes vtxs newIdxs tris k olds = some nodes →
      nodes.length = olds.length ∧
      ∀ (m : ℕ) (hm : m < nodes.length), ∃ raw,
        Nav.entryList newIdxs tris (k + m) = some raw ∧
        raw.isEmpty = false ∧
        (nodes.get ⟨m, hm⟩).neighbours =
          Nav.dedupAdj (Nav.sortAsc (raw.filter (fun x => x ≠ k + m))) := by
  intro olds
  induction olds with
  | nil =>
    intro k nodes h
    rw [Nav.buildNodes] at h
    have : nodes = [] := by simpa using h.symm
    subst this
    exact ⟨rfl, fun m hm => absurd hm (by simp)⟩
  | cons old rest ih =>
    intro k nodes h
    rw [Nav.buildNodes] at h
    rcases he : Nav.entryList newIdxs tris k with _ | raw
    · rw [he] at h
      simp at h
    rw [he] at h
    simp only [Option.bind_eq_bind, Option.some_bind] at h
    rcases hemp : raw.isEmpty with _ | _
    · rw [if_neg (by rw [hemp]; exact Bool.false_ne_true)] at h
      rcases hp : vtxs.get? old with _ | p
      · rw [hp] at h
        simp at h
      rw [hp] at h
      simp only [Option.some_bind] at h
      rcases hr : Nav.buildNodes vtxs newIdxs tris (k + 1) rest with _ | restNodes
      · rw [hr] at h
        simp at h
      rw [hr] at h
      simp only [Option.some_bind, Option.pure_def, Option.some.injEq] at h
      subst h
      obtain ⟨hlen, hspec⟩ := ih (k + 1) restNodes hr
      refine ⟨by simp [hlen], ?_⟩
      intro m hm
      cases m with
      | zero =>
        refine ⟨raw, by rw [Nat.add_zero]; exact he, hemp, ?_⟩
        rw [Nat.add_zero]
        rfl
      | succ m2 =>
        have hm2 : m2 < restNodes.length := by
          simp only [List.length_cons] at hm
          omega
        obtain ⟨raw2, he2, hne2, hform2⟩ := hspec m2 hm2
        have harith : k + 1 + m2 = k + (m2 + 1) := by omega
        rw [harith] at he2 hform2
        exact ⟨raw2, he2, hne2, hform2⟩
    · rw [if_pos (by rw [hemp])] at h
      simp at h

/-- C8: on every navmesh the construction produces, the neighbour relation is
symmetric: if `j` appears in welded node `i`'s neighbours then `i` appears in
welded node `j`'s neighbours (and `j` is a valid welded index).  Neighbour
entries come from shared triangles, which is a symmetric condition; the
self-filter and the sort/dedup preserve it. -/
theorem claim_C8_navmesh_symmetry (tol : ℚ) (vtxs : List Nav.V3)
    (idxs : List Int) (nodes : List Nav.NavNode)
    (h : Nav.get_navmesh tol vtxs idxs = some nodes)
    (i j : ℕ) (hi : i < nodes.length)
    (hmem : j ∈ (nodes.get ⟨i, hi⟩).neighbours) :
    ∃ hj : j < nodes.length, i ∈ (nodes.get ⟨j, hj⟩).neighbours := by
  rw [Nav.get_navmesh] at h
  rcases hc : Nav.chunks3 idxs with _ | tris
  · rw [hc] at h
    simp at h
  rw [hc] at h
  simp only [Option.bind_eq_bind, Option.some_bind] at h
  obtain ⟨hlen, hspec⟩ := buildNodes_spec vtxs (Nav.weld tol vtxs).1 tris
    (Nav.weld tol vtxs).2 0 nodes h
  obtain ⟨rawI, heI, hneI, hformI⟩ := hspec i hi
  rw [Nat.zero_add] at heI hformI
  rw [hformI, mem_dedupAdj, mem_sortAsc, List.mem_filter] at hmem
  obtain ⟨hjraw, hdec⟩ := hmem
  have hji : j ≠ i := by simpa using hdec
  obtain ⟨t, ht, w, hw, hiw, hjw⟩ := (mem_entryList heI).mp hjraw
  have hjnew : j ∈ (Nav.weld tol vtxs).1 := by
    obtain ⟨h1, h2, h3⟩ := triWelds_mem hw
    rcases List.mem_cons.mp hjw with rfl | hjw2
    · exact h1
    rcases List.mem_cons.mp hjw2 with rfl | hjw3
    · exact h2
    rcases List.mem_cons.mp hjw3 with rfl | hjw4
    · exact h3
    · simp at hjw4
  have hjlt : j < nodes.length := by
    rw [hlen]
    exact weld_newIdxs_lt tol vtxs j hjnew
  obtain ⟨rawJ, heJ, hneJ, hformJ⟩ := hspec j hjlt
  rw [Nat.zero_add] at heJ hformJ
  refine ⟨hjlt, ?_⟩
  rw [hformJ, mem_dedupAdj, mem_sortAsc, List.mem_filter]
  refine ⟨(mem_entryList heJ).mpr ⟨t, ht, w, hw, hjw, hiw⟩, ?_⟩
  simp only [decide_eq_true_eq]
  omega

/-- Witness for C8: the one-triangle mesh on distinct vertices, instantiated
at the neighbour pair (0, 1). -/
theorem claim_C8_navmesh_symmetry_witness :
    ∃ hj : 1 < 3,
      0 ∈ (([ { pos := ((0 : ℚ), (0 : ℚ), (0 : ℚ)), neighbours := [1, 2] },
        { pos := ((1 : ℚ), (0 : ℚ), (0 : ℚ)), neighbours := [0, 2] },
        { pos := ((0 : ℚ), (1 : ℚ), (0 : ℚ)), neighbours := [0, 1] } ] :
          List Nav.NavNode).get ⟨1, hj⟩).neighbours := by
  have h : Nav.get_navmesh (1 / 1000) [(0, 0, 0), (1, 0, 0), (0, 1, 0)]
      [0, 1, 2] = some
      [ { pos := ((0 : ℚ), (0 : ℚ), (0 : ℚ)), neighbours := [1, 2] },
        { pos := ((1 : ℚ), (0 : ℚ), (0 : ℚ)), neighbours := [0, 2] },
        { pos := ((0 : ℚ), (1 : ℚ), (0 : ℚ)), neighbours := [0, 1] } ] := by
    decide
  exact claim_C8_navmesh_symmetry (1 / 1000) _ _ _ h 0 1 (by decide) (by decide)

/-- A successful `i32` slice read implies the index is in range. -/
theorem getFA_bounds {α : Type} {l : List α} {i : Int} {a : α}
    (h : AStar.getF l i = some a) : 0 ≤ i ∧ i.toNat < l.length := by
  rw [AStar.getF] at h
  by_cases hneg : i < 0
  · rw [if_pos hneg] at h
    simp at h
  · rw [if_neg hneg] at h
    obtain ⟨hlt, _⟩ := List.get?_eq_some.mp h
    exact ⟨not_lt.mp hneg, hlt⟩

/-- The scratch-array write preserves the array length. -/
theorem setF_length {α : Type} (l : List α) (i : Int) (a : α) :
    (AStar.setF l i a).length = l.length := by
  rw [AStar.setF]
  split <;> simp

/-- Reading back the cell just written. -/
theorem getF_setF_self {α : Type} {l : List α} {i : Int} (a : α) (h0 : 0 ≤ i)
    (hlt : i.toNat < l.length) : AStar.getF (AStar.setF l i a) i = some a := by
  rw [AStar.setF, AStar.getF, if_neg (not_lt.mpr h0), if_neg (not_lt.mpr h0)]
  exact List.get?_set_eq_of_lt a hlt

/-- Reading any other cell after a write. -/
theorem getF_setF_ne {α : Type} {l : List α} {i x : Int} (a : α) (hne : x ≠ i) :
    AStar.getF (AStar.setF l i a) x = AStar.getF l x := by
  rw [AStar.setF]
  by_cases hineg : i < 0
  · rw [if_pos hineg]
  · rw [if_neg hineg]
    rw [AStar.getF, AStar.getF]
    by_cases hxneg : x < 0
    · rw [if_pos hxneg, if_pos hxneg]
    · rw [if_neg hxneg, if_neg hxneg]
      have : i.toNat ≠ x.toNat := by omega
      rw [List.get?_set_ne _ _ this]

/-- Reading an untouched scratch array yields the fill value. -/
theorem getF_replicate {n : ℕ} {c : Int} {x v : Int}
    (h : AStar.getF (List.replicate n c) x = some v) : v = c := by
  rw [AStar.getF] at h
  by_cases hneg : x < 0
  · rw [if_pos hneg] at h
    simp at h
  · rw [if_neg hneg] at h
    exact List.eq_of_mem_replicate (List.get?_mem h)

/-- The popped heap element is one of the queued elements. -/
theorem popMin_mem : ∀ {l : List (Int × ℚ)} {x : Int × ℚ} {r : List (Int × ℚ)},
    AStar.popMin l = some (x, r) → x ∈ l := by
  intro l
  induction l with
  | nil => intro x r h; rw [AStar.popMin] at h; exact absurd h (by simp)
  | cons a rest ih =>
    intro x r h
    rw [AStar.popMin] at h
    rcases hm : AStar.popMin rest with _ | mr
    · rw [hm] at h
      simp only [Option.some.injEq, Prod.mk.injEq] at h
      rw [← h.1]
      exact List.mem_cons_self a rest
    · rcases mr with ⟨m, rest1⟩
      rw [hm] at h
      have h2 : (if a.2 ≤ m.2 then some (a, rest) else some (m, a :: rest1)) =
          some (x, r) := h
      by_cases hle : a.2 ≤ m.2
      · rw [if_pos hle] at h2
        simp only [Option.some.injEq, Prod.mk.injEq] at h2
        rw [← h2.1]
        exact List.mem_cons_self a rest
      · rw [if_neg hle] at h2
        simp only [Option.some.injEq, Prod.mk.injEq] at h2
        rw [← h2.1]
        exact List.mem_cons_of_mem a (ih hm)

/-- The heap remainder after a pop is a subcollection of the queue. -/
theorem popMin_rest_mem : ∀ {l : List (Int × ℚ)} {x : Int × ℚ}
    {r : List (Int × ℚ)}, AStar.popMin l = some (x, r) → ∀ y ∈ r, y ∈ l := by
  intro l
  induction l with
  | nil => intro x r h; rw [AStar.popMin] at h; exact absurd h (by simp)
  | cons a rest ih =>
    intro x r h
    rw [AStar.popMin] at h
    rcases hm : AStar.popMin rest with _ | mr
    · rw [hm] at h
      simp only [Option.some.injEq, Prod.mk.injEq] at h
      intro y hy
      rw [← h.2] at hy
      simp at hy
    · rcases mr with ⟨m, rest1⟩
      rw [hm] at h
      have h2 : (if a.2 ≤ m.2 then some (a, rest) else some (m, a :: rest1)) =
          some (x, r) := h
      by_cases hle : a.2 ≤ m.2
      · rw [if_pos hle] at h2
        simp only [Option.some.injEq, Prod.mk.injEq] at h2
        intro y hy
        rw [← h2.2] at hy
        exact List.mem_cons_of_mem a hy
      · rw [if_neg hle] at h2
        simp only [Option.some.injEq, Prod.mk.injEq] at h2
        intro y hy
        rw [← h2.2] at hy
        rcases List.mem_cons.mp hy with rfl | hy2
        · exact List.mem_cons_self y rest
        · exact List.mem_cons_of_mem a (ih hm y hy2)

/-- Inversion of a successful heuristic computation. -/
theorem heuristic_eq {ν π : Type} {G : AStar.Graph ν π} {i j : Int} {q : ℚ}
    (h : AStar.heuristic G i j = some q) :
    ∃ a b, AStar.getF G.nodes i = some a ∧ AStar.getF G.nodes j = some b ∧
      q = G.dist (G.get_pos a) (G.get_pos b) := by
  rw [AStar.heuristic] at h
  rcases ha : AStar.getF G.nodes i with _ | a
  · rw [ha] at h
    simp at h
  rcases hb : AStar.getF G.nodes j with _ | b
  · rw [ha, hb] at h
    simp at h
  rw [ha, hb] at h
  simp only [Option.bind_eq_bind, Option.some_bind, Option.pure_def,
    Option.some.injEq] at h
  exact ⟨a, b, rfl, rfl, h.symm⟩

/-- Inversion of a successful `idx_to_pos`. -/
theorem idx_to_pos_eq {ν π : Type} {G : AStar.Graph ν π} {i : Int} {p : π}
    (h : AStar.idx_to_pos G i = some p) :
    ∃ node, AStar.getF G.nodes i = some node ∧ p = G.get_pos node := by
  rw [AStar.idx_to_pos] at h
  rcases hg : AStar.getF G.nodes i with _ | node
  · rw [hg] at h
    simp at h
  · rw [hg] at h
    simp only [Option.map_some', Option.some.injEq] at h
    exact ⟨node, rfl, h.symm⟩

/-- Every position the reconstruction pushes belongs to a node reachable
from the start (under the predecessor invariant). -/
theorem reconstruct_reach {ν π : Type} (G : AStar.Graph ν π) (from_idx : Int)
    (cf : List Int) (hcf : AStar.CFInv G from_idx cf) :
    ∀ (rf : ℕ) (start : Int) (l : List π),
      AStar.reconstruct G cf from_idx start rf = some l →
      ∀ p ∈ l, ∃ i node, AStar.Reach G from_idx i ∧
        AStar.getF G.nodes i = some node ∧ p = G.get_pos node := by
  intro rf
  induction rf with
  | zero =>
    intro start l h
    rw [AStar.reconstruct] at h
    exact absurd h (by simp)
  | succ rf ih =>
    intro start l h
    rw [AStar.reconstruct] at h
    rcases hc1 : AStar.getF cf start with _ | c1
    · rw [hc1] at h
      simp at h
    rw [hc1] at h
    simp only [Option.bind_eq_bind, Option.some_bind] at h
    rcases hp : AStar.idx_to_pos G c1 with _ | p
    · rw [hp] at h
      simp at h
    rw [hp] at h
    simp only [Option.some_bind] at h
    obtain ⟨node, hnode, hpos⟩ := idx_to_pos_eq hp
    have h0c1 : 0 ≤ c1 := (getFA_bounds hnode).1
    have hrc1 := (hcf start c1 hc1 h0c1).2
    by_cases hcf1 : c1 = from_idx
    · rw [if_pos hcf1] at h
      simp only [Option.pure_def, Option.some.injEq] at h
      subst h
      intro q hq
      simp only [List.mem_singleton] at hq
      subst hq
      exact ⟨c1, node, hrc1, hnode, hpos⟩
    · rw [if_neg hcf1] at h
      rcases hrec : AStar.reconstruct G cf from_idx c1 rf with _ | restL
      · rw [hrec] at h
        simp at h
      rw [hrec] at h
      simp only [Option.some_bind, Option.pure_def, Option.some.injEq] at h
      subst h
      intro q hq
      rcases List.mem_cons.mp hq with rfl | hq2
      · exact ⟨c1, node, hrc1, hnode, hpos⟩
      · exact ih c1 restL hrec q hq2

/-- The relaxation fold preserves the search-state invariant: predecessors
are written only along edges out of the popped (reachable) node, queued
entries get defined predecessors, and the best-so-far tracking only improves
below the start's heuristic. -/
theorem relaxAll_inv {ν π : Type} (G : AStar.Graph ν π) (cost_fn : ν → ν → ℚ)
    (to_idx : Int) (cur_idx : Int) (curNode : ν) (nodeT : ν)
    (hnodeT : AStar.getF G.nodes to_idx = some nodeT) (h0 : ℚ) (from_idx : Int)
    (hcurR : AStar.Reach G from_idx cur_idx)
    (hcurN : AStar.getF G.nodes cur_idx = some curNode) :
    ∀ (ns : List Int) (s s1 : AStar.SearchState),
      (∀ nx ∈ ns, nx ∈ G.get_neighbours curNode) →
      AStar.StateInv G from_idx (G.get_pos nodeT) h0 s →
      AStar.relaxAll G cost_fn to_idx cur_idx curNode ns s = some s1 →
      AStar.StateInv G from_idx (G.get_pos nodeT) h0 s1 := by
  intro ns
  induction ns with
  | nil =>
    intro s s1 hns hinv hrun
    rw [AStar.relaxAll] at hrun
    obtain rfl : s = s1 := Option.some.inj hrun
    exact hinv
  | cons next restNs ih =>
    intro s s1 hns hinv hrun
    rw [AStar.relaxAll] at hrun
    rcases hnn : AStar.getF G.nodes next with _ | nextNode
    · rw [hnn] at hrun
      simp at hrun
    rw [hnn] at hrun
    simp only [Option.bind_eq_bind, Option.some_bind] at hrun
    rcases hcc : AStar.getF s.cost cur_idx with _ | cCur
    · rw [hcc] at hrun
      simp at hrun
    rw [hcc] at hrun
    simp only [Option.some_bind] at hrun
    rcases hcn : AStar.getF s.cost next with _ | cNext
    · rw [hcn] at hrun
      simp at hrun
    rw [hcn] at hrun
    simp only [Option.some_bind] at hrun
    obtain ⟨hlen, hcf, hopen, hbest⟩ := hinv
    have hnsRest : ∀ nx ∈ restNs, nx ∈ G.get_neighbours curNode :=
      fun nx hx => hns nx (List.mem_cons_of_mem next hx)
    by_cases hupd : cCur + cost_fn curNode nextNode < cNext
    · rw [if_pos hupd] at hrun
      rcases hnh : AStar.heuristic G next to_idx with _ | nh
      · rw [hnh] at hrun
        simp at hrun
      rw [hnh] at hrun
      simp only [Option.some_bind] at hrun
      have hnb := getFA_bounds hnn
      have hcb := getFA_bounds hcurN
      have hEdge : AStar.Edge G cur_idx next :=
        ⟨curNode, hcurN, hns next (List.mem_cons_self next restNs)⟩
      have hReachNext : AStar.Reach G from_idx next := AStar.Reach.step hcurR hEdge
      obtain ⟨na, nb, hna, hnb2, hnhval⟩ := heuristic_eq hnh
      have hna2 : na = nextNode := by
        rw [hna] at hnn
        exact Option.some.inj hnn
      have hnb3 : nb = nodeT := by
        rw [hnb2] at hnodeT
        exact Option.some.inj hnodeT
      have hnext_cf : next.toNat < s.came_from.length := by
        rw [hlen]
        exact hnb.2
      have hCF2 : AStar.CFInv G from_idx
          (AStar.setF s.came_from next cur_idx) := by
        intro x v hget hv0
        by_cases hx : x = next
        · subst hx
          rw [getF_setF_self cur_idx hnb.1 hnext_cf] at hget
          obtain rfl : cur_idx = v := Option.some.inj hget
          exact ⟨hReachNext, hcurR⟩
        · rw [getF_setF_ne cur_idx hx] at hget
          exact hcf x v hget hv0
      have hOpen2 : AStar.OpenInv (AStar.setF s.came_from next cur_idx)
          (s.openSet ++ [(next, cCur + cost_fn curNode nextNode + nh)]) := by
        intro e he
        rcases List.mem_append.mp he with he1 | he2
        · obtain ⟨v, hv, hv0⟩ := hopen e he1
          by_cases hx : e.1 = next
          · rw [hx]
            exact ⟨cur_idx, getF_setF_self cur_idx hnb.1 hnext_cf, hcb.1⟩
          · rw [getF_setF_ne cur_idx hx]
            exact ⟨v, hv, hv0⟩
        · have : e = (next, cCur + cost_fn curNode nextNode + nh) := by
            simpa using he2
          rw [this]
          exact ⟨cur_idx, getF_setF_self cur_idx hnb.1 hnext_cf, hcb.1⟩
      by_cases hbs : nh < s.best_score
      · rw [if_pos hbs] at hrun
        refine ih _ s1 hnsRest ⟨?_, hCF2, hOpen2, ?_⟩ hrun
        · rw [setF_length]
          exact hlen
        · refine Or.inr ⟨hnb.1, hReachNext, ⟨nextNode, hnn, ?_⟩, ?_⟩
          · rw [hnhval, hna2, hnb3]
          · rcases hbest with ⟨_, hsc⟩ | ⟨_, _, _, hlt⟩
            · rw [hsc] at hbs
              exact hbs
            · exact lt_trans hbs hlt
      · rw [if_neg hbs] at hrun
        refine ih _ s1 hnsRest ⟨?_, hCF2, hOpen2, ?_⟩ hrun
        · rw [setF_length]
          exact hlen
        · exact hbest
    · rw [if_neg hupd] at hrun
      exact ih _ s1 hnsRest ⟨hlen, hcf, hopen, hbest⟩ hrun

/-- If the goal node is unreachable from the start node, any normal return
of the search loop satisfies the amended path contract: the success branch is
impossible, and both the fallback and the empty result stay inside the
start's component. -/
theorem solveLoop_inv {ν π : Type} (G : AStar.Graph ν π) (cost_fn : ν → ν → ℚ)
    (from_idx to_idx : Int) (toPt : π) (rfuel : ℕ) (nodeT : ν)
    (hnodeT : AStar.getF G.nodes to_idx = some nodeT) (h0 : ℚ)
    (hreach : ¬ AStar.Reach G from_idx to_idx) :
    ∀ (fuel : ℕ) (s : AStar.SearchState) (path : List π),
      AStar.StateInv G from_idx (G.get_pos nodeT) h0 s →
      AStar.solveLoop G cost_fn from_idx to_idx toPt rfuel s fuel = some path →
      AStar.PathOk G from_idx (G.get_pos nodeT) h0 path := by
  intro fuel
  induction fuel with
  | zero =>
    intro s path hinv hrun
    rw [AStar.solveLoop] at hrun
    exact absurd hrun (by simp)
  | succ fuel ih =>
    intro s path hinv hrun
    obtain ⟨hlen, hcf, hopen, hbest⟩ := hinv
    rw [AStar.solveLoop] at hrun
    rcases hpop : AStar.popMin s.openSet with _ | curRest
    · rw [hpop] at hrun
      have hrun2 : (if s.best_idx > -1 then
          (AStar.idx_to_pos G s.best_idx).bind fun p =>
            (AStar.reconstruct G s.came_from from_idx s.best_idx rfuel).bind
              fun restL => some (p :: restL)
          else some []) = some path := hrun
      by_cases hbi : s.best_idx > -1
      · rw [if_pos hbi] at hrun2
        rcases hip : AStar.idx_to_pos G s.best_idx with _ | p
        · rw [hip] at hrun2
          simp at hrun2
        rw [hip] at hrun2
        simp only [Option.some_bind] at hrun2
        rcases hrec : AStar.reconstruct G s.came_from from_idx s.best_idx rfuel
          with _ | restL
        · rw [hrec] at hrun2
          simp at hrun2
        rw [hrec] at hrun2
        simp only [Option.some_bind, Option.some.injEq] at hrun2
        subst hrun2
        rcases hbest with ⟨hbi1, _⟩ | ⟨hge, hR, ⟨nodeB, hnB, hbs⟩, hlt⟩
        · rw [hbi1] at hbi
          exact absurd hbi (by omega)
        · obtain ⟨node2, hn2, hp2⟩ := idx_to_pos_eq hip
          have hnodeEq : node2 = nodeB := by
            rw [hn2] at hnB
            exact Option.some.inj hnB
          subst hnodeEq
          constructor
          · intro q hq
            rcases List.mem_cons.mp hq with rfl | hq2
            · exact ⟨s.best_idx, node2, hR, hn2, hp2⟩
            · exact reconstruct_reach G from_idx s.came_from hcf rfuel
                s.best_idx restL hrec q hq2
          · intro _
            refine ⟨s.best_idx, node2, hR, hn2, ?_, ?_⟩
            · rw [List.head?_cons, hp2]
            · rw [← hbs]
              exact hlt
      · rw [if_neg hbi] at hrun2
        simp only [Option.some.injEq] at hrun2
        subst hrun2
        exact ⟨by simp, fun hne => absurd rfl hne⟩
    · rcases curRest with ⟨cur, rest⟩
      rw [hpop] at hrun
      have hrun2 : (if cur.1 = to_idx then
          (AStar.reconstruct G s.came_from from_idx to_idx rfuel).bind
            fun tail => some (toPt :: tail)
          else
          (AStar.getF G.nodes cur.1).bind fun curNode =>
            (AStar.relaxAll G cost_fn to_idx cur.1 curNode
              (G.get_neighbours curNode) { s with openSet := rest }).bind
              fun s1 =>
                AStar.solveLoop G cost_fn from_idx to_idx toPt rfuel s1 fuel) =
          some path := hrun
      have hcurR : AStar.Reach G from_idx cur.1 := by
        obtain ⟨v, hv, hv0⟩ := hopen cur (popMin_mem hpop)
        exact (hcf cur.1 v hv hv0).1
      by_cases hgoal : cur.1 = to_idx
      · exact absurd (hgoal ▸ hcurR) hreach
      · rw [if_neg hgoal] at hrun2
        rcases hcn : AStar.getF G.nodes cur.1 with _ | curNode
        · rw [hcn] at hrun2
          simp at hrun2
        rw [hcn] at hrun2
        simp only [Option.some_bind] at hrun2
        rcases hrel : AStar.relaxAll G cost_fn to_idx cur.1 curNode
            (G.get_neighbours curNode) { s with openSet := rest } with _ | s1
        · rw [hrel] at hrun2
          simp at hrun2
        rw [hrel] at hrun2
        simp only [Option.some_bind] at hrun2
        have hinvRest : AStar.StateInv G from_idx (G.get_pos nodeT) h0
            { s with openSet := rest } := by
          refine ⟨hlen, hcf, ?_, hbest⟩
          intro e he
          exact hopen e (popMin_rest_mem hpop e he)
        have hinv1 := relaxAll_inv G cost_fn to_idx cur.1 curNode nodeT hnodeT
          h0 from_idx hcurR hcn (G.get_neighbours curNode)
          { s with openSet := rest } s1 (fun nx hx => hx) hinvRest hrel
        exact ih s1 path hinv1 hrun2

/-- C4 amended: whenever `solve` is called with the node nearest `from` in a
different component from the node nearest `to` (so the goal is unreachable)
and returns normally, the returned path — possibly *empty*, e.g. whenever no
relaxation ever improves on the start's own heuristic-to-goal, as in the
counterexample — consists solely of positions of nodes in the start node's
component, and when non-empty it begins (i.e. ends, after the caller's
reversal) at a component node strictly closer to the goal node, by heuristic
distance, than the start node itself. -/
theorem claim_C4_amended {ν π : Type} (G : AStar.Graph ν π) (fromPt toPt : π)
    (cost_fn : ν → ν → ℚ) (fuel rfuel : ℕ) (from_idx to_idx : Int)
    (path : List π)
    (hfrom : AStar.pos_to_idx G fromPt = some from_idx)
    (hto : AStar.pos_to_idx G toPt = some to_idx)
    (hreach : ¬ AStar.Reach G from_idx to_idx)
    (hsolve : AStar.solve G fromPt toPt cost_fn fuel rfuel = some path) :
    ∃ nodeF nodeT, AStar.getF G.nodes from_idx = some nodeF ∧
      AStar.getF G.nodes to_idx = some nodeT ∧
      AStar.PathOk G from_idx (G.get_pos nodeT)
        (G.dist (G.get_pos nodeF) (G.get_pos nodeT)) path := by
  rw [AStar.solve] at hsolve
  rw [hfrom] at hsolve
  simp only [Option.bind_eq_bind, Option.some_bind] at hsolve
  rw [hto] at hsolve
  simp only [Option.some_bind] at hsolve
  rcases hh0 : AStar.heuristic G from_idx from_idx with _ | h0v
  · rw [hh0] at hsolve
    simp at hsolve
  rw [hh0] at hsolve
  simp only [Option.some_bind] at hsolve
  rcases hbs : AStar.heuristic G from_idx to_idx with _ | bs0
  · rw [hbs] at hsolve
    simp at hsolve
  rw [hbs] at hsolve
  simp only [Option.some_bind] at hsolve
  obtain ⟨nodeF, nodeF2, hnF, hnF2, _⟩ := heuristic_eq hh0
  obtain ⟨nodeF3, nodeT, hnF3, hnT, hbsv⟩ := heuristic_eq hbs
  have hF3 : nodeF3 = nodeF := by
    rw [hnF3] at hnF
    exact Option.some.inj hnF
  rw [hF3] at hnF3 hbsv
  refine ⟨nodeF, nodeT, hnF3, hnT, ?_⟩
  have hfb := getFA_bounds hnF3
  have hflen : from_idx.toNat <
      (List.replicate G.nodes.length (-1 : Int)).length := by
    simp only [List.length_replicate]
    exact hfb.2
  refine solveLoop_inv G cost_fn from_idx to_idx toPt rfuel nodeT hnT
    (G.dist (G.get_pos nodeF) (G.get_pos nodeT)) hreach fuel _ path
    ⟨?_, ?_, ?_, ?_⟩ hsolve
  · simp only [setF_length, List.length_replicate]
  · intro x v hget hv0
    by_cases hx : x = from_idx
    · rw [hx] at hget
      rw [getF_setF_self from_idx hfb.1 hflen] at hget
      obtain rfl : from_idx = v := Option.some.inj hget
      rw [hx]
      exact ⟨AStar.Reach.refl, AStar.Reach.refl⟩
    · rw [getF_setF_ne from_idx hx] at hget
      have := getF_replicate hget
      omega
  · intro e he
    have : e = (from_idx, h0v) := by simpa using he
    rw [this]
    exact ⟨from_idx, getF_setF_self from_idx hfb.1 hflen, hfb.1⟩
  · exact Or.inl ⟨rfl, hbsv⟩

/-- Witness for the amended C4 at the two-component graph: the empty path
trivially satisfies the contract. -/
theorem claim_C4_amended_witness :
    ∃ nodeF nodeT,
      AStar.getF (AStar.lineGraph AStar.twoCompNodes).nodes 0 = some nodeF ∧
      AStar.getF (AStar.lineGraph AStar.twoCompNodes).nodes 2 = some nodeT ∧
      AStar.PathOk (AStar.lineGraph AStar.twoCompNodes) 0
        ((AStar.lineGraph AStar.twoCompNodes).get_pos nodeT)
        ((AStar.lineGraph AStar.twoCompNodes).dist
          ((AStar.lineGraph AStar.twoCompNodes).get_pos nodeF)
          ((AStar.lineGraph AStar.twoCompNodes).get_pos nodeT)) [] :=
  claim_C4_amended (AStar.lineGraph AStar.twoCompNodes) 0 5 (fun _ _ => 1)
    10 10 0 2 [] (by decide) (by decide) twoCompNodes_not_reach (by decide)

/-- A nonnegative in-range `i32` index reads successfully. -/
theorem getFA_some {α : Type} (l : List α) (i : Int) (h0 : 0 ≤ i)
    (hlt : i.toNat < l.length) : ∃ a, AStar.getF l i = some a := by
  rw [AStar.getF, if_neg (not_lt.mpr h0)]
  exact ⟨l.get ⟨i.toNat, hlt⟩, List.get?_eq_get hlt⟩

/-- Reading any cell of a freshly filled scratch array yields the fill
value. -/
theorem getF_replicate_any {α : Type} {n : ℕ} {q : α} {x : Int} {v : α}
    (h : AStar.getF (List.replicate n q) x = some v) : v = q := by
  rw [AStar.getF] at h
  by_cases hneg : x < 0
  · rw [if_pos hneg] at h
    simp at h
  · rw [if_neg hneg] at h
    exact List.eq_of_mem_replicate (List.get?_mem h)

/-- Popping a non-empty heap always succeeds. -/
theorem popMin_cons_isSome (a : Int × ℚ) (l : List (Int × ℚ)) :
    ∃ x r, AStar.popMin (a :: l) = some (x, r) := by
  rw [AStar.popMin]
  rcases hm : AStar.popMin l with _ | mr
  · exact ⟨a, [], rfl⟩
  · rcases mr with ⟨m, rest1⟩
    by_cases hle : a.2 ≤ m.2
    · refine ⟨a, l, ?_⟩
      show (if a.2 ≤ m.2 then some (a, l) else some (m, a :: rest1)) =
        some (a, l)
      rw [if_pos hle]
    · refine ⟨m, a :: rest1, ?_⟩
      show (if a.2 ≤ m.2 then some (a, l) else some (m, a :: rest1)) =
        some (m, a :: rest1)
      rw [if_neg hle]

/-- A successful pop permutes the heap into the popped element followed by
the remainder. -/
theorem popMin_perm : ∀ {l : List (Int × ℚ)} {x : Int × ℚ}
    {r : List (Int × ℚ)}, AStar.popMin l = some (x, r) → l.Perm (x :: r) := by
  intro l
  induction l with
  | nil => intro x r h; rw [AStar.popMin] at h; exact absurd h (by simp)
  | cons a rest ih =>
    intro x r h
    rw [AStar.popMin] at h
    rcases hm : AStar.popMin rest with _ | mr
    · have hrest : rest = [] := by
        cases rest with
        | nil => rfl
        | cons b rest2 =>
          obtain ⟨x2, r2, h2⟩ := popMin_cons_isSome b rest2
          rw [h2] at hm
          exact absurd hm (by simp)
      subst hrest
      rw [hm] at h
      simp only [Option.some.injEq, Prod.mk.injEq] at h
      rw [← h.1, ← h.2]
    · rcases mr with ⟨m, rest1⟩
      rw [hm] at h
      have h2 : (if a.2 ≤ m.2 then some (a, rest) else some (m, a :: rest1)) =
          some (x, r) := h
      by_cases hle : a.2 ≤ m.2
      · rw [if_pos hle] at h2
        simp only [Option.some.injEq, Prod.mk.injEq] at h2
        rw [← h2.1, ← h2.2]
      · rw [if_neg hle] at h2
        simp only [Option.some.injEq, Prod.mk.injEq] at h2
        rw [← h2.1, ← h2.2]
        exact ((ih hm).cons a).trans (List.Perm.swap m a rest1)

/-- Every queue element other than the popped one survives the pop. -/
theorem popMin_mem_rest_of_ne {l : List (Int × ℚ)} {x y : Int × ℚ}
    {r : List (Int × ℚ)} (h : AStar.popMin l = some (x, r)) (hy : y ∈ l)
    (hne : y ≠ x) : y ∈ r := by
  rcases List.mem_cons.mp ((popMin_perm h).mem_iff.mp hy) with h1 | h1
  · exact absurd h1 hne
  · exact h1

/-- A pop shrinks the heap by exactly one element. -/
theorem popMin_length {l : List (Int × ℚ)} {x : Int × ℚ}
    {r : List (Int × ℚ)} (h : AStar.popMin l = some (x, r)) :
    l.length = r.length + 1 :=
  (popMin_perm h).length_eq

/-- Once every valid index carries g-score `0` (the start) or the uniform
edge cost `c ≥ 0`, relaxing any further node under the uniform cost function
is a no-op: no tentative cost `g(cur) + c` can undercut an existing
g-score. -/
theorem relaxAll_noop {ν π : Type} (G : AStar.Graph ν π)
    (cost_fn : ν → ν → ℚ) (c : ℚ) (hcfn : ∀ a b, cost_fn a b = c)
    (hc0 : 0 ≤ c) (from_idx to_idx cur_idx : Int) (curNode : ν)
    (hcur0 : 0 ≤ cur_idx) (hcurlt : cur_idx.toNat < G.nodes.length) :
    ∀ (ns : List Int) (s : AStar.SearchState),
      s.cost.length = G.nodes.length →
      (∀ j : Int, 0 ≤ j → j.toNat < G.nodes.length →
        AStar.getF s.cost j = some (if j = from_idx then (0 : ℚ) else c)) →
      (∀ j ∈ ns, 0 ≤ j ∧ j.toNat < G.nodes.length) →
      AStar.relaxAll G cost_fn to_idx cur_idx curNode ns s = some s := by
  intro ns
  induction ns with
  | nil => intro s _ _ _; rw [AStar.relaxAll]
  | cons j ns ih =>
    intro s hclen hcost hns
    obtain ⟨hj0, hjlt⟩ := hns j (List.mem_cons_self j ns)
    obtain ⟨nodej, hnodej⟩ := getFA_some G.nodes j hj0 hjlt
    rw [AStar.relaxAll, hnodej]
    simp only [Option.bind_eq_bind, Option.some_bind]
    rw [hcost cur_idx hcur0 hcurlt]
    simp only [Option.some_bind]
    rw [hcost j hj0 hjlt]
    simp only [Option.some_bind]
    rw [hcfn curNode nodej]
    have hnot : ¬ ((if cur_idx = from_idx then (0 : ℚ) else c) + c <
        if j = from_idx then (0 : ℚ) else c) := by
      by_cases hcf : cur_idx = from_idx
      · rw [if_pos hcf]
        by_cases hjf : j = from_idx
        · rw [if_pos hjf]
          linarith
        · rw [if_neg hjf]
          linarith
      · rw [if_neg hcf]
        by_cases hjf : j = from_idx
        · rw [if_pos hjf]
          linarith
        · rw [if_neg hjf]
          linarith
    rw [if_neg hnot]
    exact ih s hclen hcost fun y hy => hns y (List.mem_cons_of_mem j hy)

/-- Relaxing the start node's neighbour list from the freshly seeded state:
each pending neighbour is relaxed exactly once (`c` beats the sentinel
`1e6`), repeats are skipped (`c < c` fails), and afterwards every valid
non-start index is fully processed, with at most one open entry pushed per
neighbour. -/
theorem relaxAll_seed {ν π : Type} (G : AStar.Graph ν π)
    (cost_fn : ν → ν → ℚ) (c : ℚ) (hcfn : ∀ a b, cost_fn a b = c)
    (hc0 : 0 ≤ c) (hclt : c < 1000000) (from_idx to_idx : Int) (nodeF : ν)
    (hnF : AStar.getF G.nodes from_idx = some nodeF)
    (hto : ∃ nodeT, AStar.getF G.nodes to_idx = some nodeT) :
    ∀ (ns : List Int) (s : AStar.SearchState),
      (∀ j ∈ ns, 0 ≤ j ∧ j.toNat < G.nodes.length ∧ j ≠ from_idx) →
      AStar.SeedMid G from_idx c ns s →
      ∃ s1, AStar.relaxAll G cost_fn to_idx from_idx nodeF ns s = some s1 ∧
        AStar.SeedMid G from_idx c [] s1 ∧
        s1.openSet.length ≤ s.openSet.length + ns.length := by
  obtain ⟨nodeT, hnT⟩ := hto
  intro ns
  induction ns with
  | nil =>
    intro s _ hmid
    refine ⟨s, ?_, hmid, by simp⟩
    rw [AStar.relaxAll]
  | cons j ns ih =>
    intro s hns hmid
    obtain ⟨hj0, hjlt, hjne⟩ := hns j (List.mem_cons_self j ns)
    obtain ⟨hcflen, hclen, hc0f, hcfF, hjchar, hopenv⟩ := hmid
    obtain ⟨nodej, hnodej⟩ := getFA_some G.nodes j hj0 hjlt
    have htail : ∀ x ∈ ns, 0 ≤ x ∧ x.toNat < G.nodes.length ∧ x ≠ from_idx :=
      fun x hx => hns x (List.mem_cons_of_mem j hx)
    rw [AStar.relaxAll, hnodej]
    simp only [Option.bind_eq_bind, Option.some_bind]
    rw [hc0f]
    simp only [Option.some_bind]
    rcases hjchar j hj0 hjlt hjne with ⟨hcj, hcfj, f0, hf0⟩ | ⟨hcj, _⟩
    · rw [hcj]
      simp only [Option.some_bind]
      rw [hcfn nodeF nodej, zero_add]
      rw [if_neg (lt_irrefl c)]
      have hchar2 : ∀ j2 : Int, 0 ≤ j2 → j2.toNat < G.nodes.length →
          j2 ≠ from_idx →
          ((AStar.getF s.cost j2 = some c ∧
            AStar.getF s.came_from j2 = some from_idx ∧
            ∃ f, (j2, f) ∈ s.openSet) ∨
           (AStar.getF s.cost j2 = some 1000000 ∧ j2 ∈ ns)) := by
        intro j2 h1 h2 h3
        rcases hjchar j2 h1 h2 h3 with hA | ⟨hB1, hB2⟩
        · exact Or.inl hA
        · rcases List.mem_cons.mp hB2 with rfl | hB3
          · rw [hcj] at hB1
            exact absurd (Option.some.inj hB1) (ne_of_lt hclt)
          · exact Or.inr ⟨hB1, hB3⟩
      obtain ⟨s1, hrun, hpost, hlen1⟩ :=
        ih s htail ⟨hcflen, hclen, hc0f, hcfF, hchar2, hopenv⟩
      refine ⟨s1, hrun, hpost, ?_⟩
      have hlc : (j :: ns).length = ns.length + 1 := rfl
      omega
    · rw [hcj]
      simp only [Option.some_bind]
      rw [hcfn nodeF nodej, zero_add]
      rw [if_pos hclt]
      have hheur : AStar.heuristic G j to_idx =
          some (G.dist (G.get_pos nodej) (G.get_pos nodeT)) := by
        rw [AStar.heuristic, hnodej]
        simp only [Option.bind_eq_bind, Option.some_bind]
        rw [hnT]
        simp only [Option.some_bind, Option.pure_def]
      rw [hheur]
      simp only [Option.some_bind]
      have hjcf : j.toNat < s.came_from.length := by rw [hcflen]; exact hjlt
      have hjc : j.toNat < s.cost.length := by rw [hclen]; exact hjlt
      have hmid2 : ∀ (bs' : ℚ) (bi' : Int), AStar.SeedMid G from_idx c ns
          { best_score := bs'
            best_idx := bi'
            came_from := AStar.setF s.came_from j from_idx
            cost := AStar.setF s.cost j c
            openSet := s.openSet ++
              [(j, c + G.dist (G.get_pos nodej) (G.get_pos nodeT))] } := by
        intro bs' bi'
        refine ⟨?_, ?_, ?_, ?_, ?_, ?_⟩
        · show (AStar.setF s.came_from j from_idx).length = G.nodes.length
          rw [setF_length]
          exact hcflen
        · show (AStar.setF s.cost j c).length = G.nodes.length
          rw [setF_length]
          exact hclen
        · show AStar.getF (AStar.setF s.cost j c) from_idx = some 0
          rw [getF_setF_ne c (Ne.symm hjne)]
          exact hc0f
        · show AStar.getF (AStar.setF s.came_from j from_idx) from_idx =
            some from_idx
          rw [getF_setF_ne from_idx (Ne.symm hjne)]
          exact hcfF
        · intro j2 h1 h2 h3
          by_cases hj2 : j2 = j
          · subst hj2
            refine Or.inl ⟨getF_setF_self c h1 hjc,
              getF_setF_self from_idx h1 hjcf,
              ⟨c + G.dist (G.get_pos nodej) (G.get_pos nodeT), ?_⟩⟩
            exact List.mem_append_right _ (List.mem_singleton.mpr rfl)
          · rcases hjchar j2 h1 h2 h3 with ⟨hA1, hA2, f2, hf2⟩ | ⟨hB1, hB2⟩
            · refine Or.inl ⟨?_, ?_, ⟨f2, List.mem_append_left _ hf2⟩⟩
              · show AStar.getF (AStar.setF s.cost j c) j2 = some c
                rw [getF_setF_ne c hj2]
                exact hA1
              · show AStar.getF (AStar.setF s.came_from j from_idx) j2 =
                  some from_idx
                rw [getF_setF_ne from_idx hj2]
                exact hA2
            · refine Or.inr ⟨?_, ?_⟩
              · show AStar.getF (AStar.setF s.cost j c) j2 = some 1000000
                rw [getF_setF_ne c hj2]
                exact hB1
              · rcases List.mem_cons.mp hB2 with rfl | hmem
                · exact absurd rfl hj2
                · exact hmem
        · intro e he
          rcases List.mem_append.mp he with h1 | h2
          · exact hopenv e h1
          · have he2 : e = (j, c + G.dist (G.get_pos nodej)
                (G.get_pos nodeT)) := by
              simpa using h2
            rw [he2]
            exact ⟨hj0, hjlt, hjne⟩
      by_cases hbs : G.dist (G.get_pos nodej) (G.get_pos nodeT) < s.best_score
      · rw [if_pos hbs]
        obtain ⟨s1, hrun, hpost, hlen1⟩ := ih _ htail
          (hmid2 (G.dist (G.get_pos nodej) (G.get_pos nodeT)) j)
        refine ⟨s1, hrun, hpost, ?_⟩
        have hlen1b : s1.openSet.length ≤ (s.openSet ++
            [(j, c + G.dist (G.get_pos nodej) (G.get_pos nodeT))]).length +
            ns.length := hlen1
        simp only [List.length_append, List.length_singleton,
          List.length_cons, List.length_nil] at hlen1b ⊢
        omega
      · rw [if_neg hbs]
        obtain ⟨s1, hrun, hpost, hlen1⟩ := ih _ htail
          (hmid2 s.best_score s.best_idx)
        refine ⟨s1, hrun, hpost, ?_⟩
        have hlen1b : s1.openSet.length ≤ (s.openSet ++
            [(j, c + G.dist (G.get_pos nodej) (G.get_pos nodeT))]).length +
            ns.length := hlen1
        simp only [List.length_append, List.length_singleton,
          List.length_cons, List.length_nil] at hlen1b ⊢
        omega

/-- After the seed expansion over a complete uniform-cost graph, every
further iteration either pops the goal entry — succeeding with the
two-element path `[to, pos(start)]` — or pops some other node, relaxes
nothing, and strictly shrinks the open set. -/
theorem solveLoop_complete {ν π : Type} (G : AStar.Graph ν π)
    (cost_fn : ν → ν → ℚ) (c : ℚ) (hcfn : ∀ a b, cost_fn a b = c)
    (hc0 : 0 ≤ c) (from_idx to_idx : Int) (toPt : π) (nodeF : ν)
    (hnF : AStar.getF G.nodes from_idx = some nodeF)
    (Hnodes : ∀ (i : Int) (node : ν), AStar.getF G.nodes i = some node →
      ∀ j ∈ G.get_neighbours node, 0 ≤ j ∧ j.toNat < G.nodes.length)
    (rfuel : ℕ) (hrf : 1 ≤ rfuel) :
    ∀ (fuel : ℕ) (s : AStar.SearchState),
      s.cost.length = G.nodes.length →
      (∀ j : Int, 0 ≤ j → j.toNat < G.nodes.length →
        AStar.getF s.cost j = some (if j = from_idx then (0 : ℚ) else c)) →
      (∀ j : Int, 0 ≤ j → j.toNat < G.nodes.length →
        AStar.getF s.came_from j = some from_idx) →
      (∀ e ∈ s.openSet, 0 ≤ e.1 ∧ e.1.toNat < G.nodes.length) →
      (∃ f, (to_idx, f) ∈ s.openSet) →
      s.openSet.length < fuel →
      AStar.solveLoop G cost_fn from_idx to_idx toPt rfuel s fuel =
        some [toPt, G.get_pos nodeF] := by
  intro fuel
  induction fuel with
  | zero => intro s _ _ _ _ _ hlt; omega
  | succ fuel ih =>
    intro s hclen hcost hcf hopenv htoIn hlt
    obtain ⟨f0, hf0⟩ := htoIn
    rw [AStar.solveLoop]
    obtain ⟨x, r, hpopEq⟩ : ∃ x r, AStar.popMin s.openSet = some (x, r) := by
      rcases hOS : s.openSet with _ | ⟨a, l⟩
      · rw [hOS] at hf0
        exact absurd hf0 (by simp)
      · exact popMin_cons_isSome a l
    rw [hpopEq]
    show (if x.1 = to_idx then
        (AStar.reconstruct G s.came_from from_idx to_idx rfuel).bind
          fun tail => some (toPt :: tail)
      else
        (AStar.getF G.nodes x.1).bind fun curNode =>
          (AStar.relaxAll G cost_fn to_idx x.1 curNode
            (G.get_neighbours curNode) { s with openSet := r }).bind
            fun s1 =>
              AStar.solveLoop G cost_fn from_idx to_idx toPt rfuel s1 fuel) =
      some [toPt, G.get_pos nodeF]
    by_cases hgoal : x.1 = to_idx
    · rw [if_pos hgoal]
      have hto_b : 0 ≤ to_idx ∧ to_idx.toNat < G.nodes.length := by
        have hb := hopenv (to_idx, f0) hf0
        exact ⟨hb.1, hb.2⟩
      have hcfto := hcf to_idx hto_b.1 hto_b.2
      rcases rfuel with _ | rf
      · omega
      have hrec : AStar.reconstruct G s.came_from from_idx to_idx (rf + 1) =
          some [G.get_pos nodeF] := by
        rw [AStar.reconstruct, hcfto]
        simp only [Option.bind_eq_bind, Option.some_bind]
        have hip : AStar.idx_to_pos G from_idx = some (G.get_pos nodeF) := by
          rw [AStar.idx_to_pos, hnF]
          rfl
        rw [hip]
        simp only [Option.some_bind]
        simp
      rw [hrec]
      simp only [Option.some_bind]
    · rw [if_neg hgoal]
      obtain ⟨hx0, hxlt⟩ := hopenv x (popMin_mem hpopEq)
      obtain ⟨curNode, hcurNode⟩ := getFA_some G.nodes x.1 hx0 hxlt
      rw [hcurNode]
      simp only [Option.bind_eq_bind, Option.some_bind]
      rw [relaxAll_noop G cost_fn c hcfn hc0 from_idx to_idx x.1 curNode hx0
        hxlt (G.get_neighbours curNode) { s with openSet := r } hclen hcost
        (Hnodes x.1 curNode hcurNode)]
      simp only [Option.some_bind]
      have hlen2 := popMin_length hpopEq
      refine ih { s with openSet := r } hclen hcost hcf ?_ ?_ ?_
      · intro e he
        exact hopenv e (popMin_rest_mem hpopEq e he)
      · refine ⟨f0, popMin_mem_rest_of_ne hpopEq hf0 ?_⟩
        intro he
        apply hgoal
        rw [← he]
      · show r.length < fuel
        omega

/-- First loop iteration on the seeded state: the start node is popped (it
is the only queued entry), it is not the goal, and its full neighbour list
is relaxed; afterwards the terminal phase finishes with the success path. -/
theorem solveLoop_seed {ν π : Type} (G : AStar.Graph ν π)
    (cost_fn : ν → ν → ℚ) (c : ℚ) (hcfn : ∀ a b, cost_fn a b = c)
    (hc0 : 0 ≤ c) (hclt : c < 1000000) (from_idx to_idx : Int) (toPt : π)
    (nodeF nodeT : ν)
    (hnF : AStar.getF G.nodes from_idx = some nodeF)
    (hnT : AStar.getF G.nodes to_idx = some nodeT)
    (hne : from_idx ≠ to_idx)
    (Hnodes : ∀ (i : Int) (node : ν), AStar.getF G.nodes i = some node →
      ∀ j ∈ G.get_neighbours node, 0 ≤ j ∧ j.toNat < G.nodes.length ∧ j ≠ i)
    (Hcompl : ∀ j : Int, 0 ≤ j → j.toNat < G.nodes.length → j ≠ from_idx →
      j ∈ G.get_neighbours nodeF)
    (rfuel : ℕ) (hrf : 1 ≤ rfuel) (fuel : ℕ) (s : AStar.SearchState)
    (hOS : s.openSet = [(from_idx, 0)])
    (hcflen : s.came_from.length = G.nodes.length)
    (hclen : s.cost.length = G.nodes.length)
    (hcost : ∀ j : Int, 0 ≤ j → j.toNat < G.nodes.length →
      AStar.getF s.cost j = some (if j = from_idx then (0 : ℚ) else 1000000))
    (hcfF : AStar.getF s.came_from from_idx = some from_idx)
    (hfuel : (G.get_neighbours nodeF).length + 1 < fuel) :
    AStar.solveLoop G cost_fn from_idx to_idx toPt rfuel s fuel =
      some [toPt, G.get_pos nodeF] := by
  rcases fuel with _ | fuel1
  · omega
  rw [AStar.solveLoop, hOS]
  have hpop1 : AStar.popMin [(from_idx, (0 : ℚ))] =
      some ((from_idx, 0), []) := by
    simp [AStar.popMin]
  rw [hpop1]
  show (if from_idx = to_idx then
      (AStar.reconstruct G s.came_from from_idx to_idx rfuel).bind
        fun tail => some (toPt :: tail)
    else
      (AStar.getF G.nodes from_idx).bind fun curNode =>
        (AStar.relaxAll G cost_fn to_idx from_idx curNode
          (G.get_neighbours curNode) { s with openSet := [] }).bind
          fun s1 =>
            AStar.solveLoop G cost_fn from_idx to_idx toPt rfuel s1 fuel1) =
    some [toPt, G.get_pos nodeF]
  rw [if_neg hne, hnF]
  simp only [Option.bind_eq_bind, Option.some_bind]
  have hfb := getFA_bounds hnF
  have hnsVal : ∀ j ∈ G.get_neighbours nodeF,
      0 ≤ j ∧ j.toNat < G.nodes.length ∧ j ≠ from_idx :=
    Hnodes from_idx nodeF hnF
  have hmid0 : AStar.SeedMid G from_idx c (G.get_neighbours nodeF)
      { s with openSet := [] } := by
    refine ⟨hcflen, hclen, ?_, hcfF, ?_, ?_⟩
    · have hcF := hcost from_idx hfb.1 hfb.2
      rw [if_pos rfl] at hcF
      exact hcF
    · intro j h1 h2 h3
      refine Or.inr ⟨?_, Hcompl j h1 h2 h3⟩
      have hcj := hcost j h1 h2
      rw [if_neg h3] at hcj
      exact hcj
    · intro e he
      exact absurd he (List.not_mem_nil e)
  obtain ⟨s1, hrel, hpost, hlen1⟩ := relaxAll_seed G cost_fn c hcfn hc0 hclt
    from_idx to_idx nodeF hnF ⟨nodeT, hnT⟩ (G.get_neighbours nodeF)
    { s with openSet := [] } hnsVal hmid0
  rw [hrel]
  simp only [Option.some_bind]
  obtain ⟨hcflen1, hclen1, hc0f1, hcfF1, hchar1, hopenv1⟩ := hpost
  have hprocessed : ∀ j : Int, 0 ≤ j → j.toNat < G.nodes.length →
      j ≠ from_idx →
      AStar.getF s1.cost j = some c ∧
      AStar.getF s1.came_from j = some from_idx ∧
      ∃ f, (j, f) ∈ s1.openSet := by
    intro j h1 h2 h3
    rcases hchar1 j h1 h2 h3 with hA | ⟨_, hB⟩
    · exact hA
    · exact absurd hB (List.not_mem_nil j)
  refine solveLoop_complete G cost_fn c hcfn hc0 from_idx to_idx toPt nodeF
    hnF (fun i node hn j hj => ⟨(Hnodes i node hn j hj).1,
      (Hnodes i node hn j hj).2.1⟩) rfuel hrf fuel1 s1 hclen1 ?_ ?_ ?_ ?_ ?_
  · intro j h1 h2
    by_cases hjf : j = from_idx
    · rw [if_pos hjf, hjf]
      exact hc0f1
    · rw [if_neg hjf]
      exact (hprocessed j h1 h2 hjf).1
  · intro j h1 h2
    by_cases hjf : j = from_idx
    · rw [hjf]
      exact hcfF1
    · exact (hprocessed j h1 h2 hjf).2.1
  · intro e he
    exact ⟨(hopenv1 e he).1, (hopenv1 e he).2.1⟩
  · have hTb := getFA_bounds hnT
    exact (hprocessed to_idx hTb.1 hTb.2 (Ne.symm hne)).2.2
  · have hempty : ({ s with openSet := ([] : List (Int × ℚ)) } :
        AStar.SearchState).openSet.length = 0 := rfl
    omega

/-- C5 corrected: over a complete graph (every valid index is a neighbour of
every other, no self-loops) with a uniform cost function of value
`0 ≤ c < 1e6`, when the nodes nearest `A` and `B` differ, `solve(A, B)`
returns exactly `[B, pos(nearest A)]`.  Reversed, the path does start at the
node nearest `A`, but it ends at the *raw query point* `B` rather than at
the position of the node nearest `B` (astar.rs line 134 seeds the success
path with `to` itself), and its final hop `pos(nearest A) → B` is therefore
not a pair of node positions at all — the claimed last element and the
claimed consecutive-neighbours property fail, as the counterexample shows. -/
theorem claim_C5_amended {ν π : Type} (G : AStar.Graph ν π)
    (fromPt toPt : π) (cost_fn : ν → ν → ℚ) (c : ℚ) (fuel rfuel : ℕ)
    (from_idx to_idx : Int) (nodeF nodeT : ν)
    (hcfn : ∀ a b, cost_fn a b = c)
    (hc0 : 0 ≤ c) (hclt : c < 1000000)
    (hfrom : AStar.pos_to_idx G fromPt = some from_idx)
    (hto : AStar.pos_to_idx G toPt = some to_idx)
    (hnF : AStar.getF G.nodes from_idx = some nodeF)
    (hnT : AStar.getF G.nodes to_idx = some nodeT)
    (hne : from_idx ≠ to_idx)
    (hdd : G.dist (G.get_pos nodeF) (G.get_pos nodeF) = 0)
    (Hnodes : ∀ (i : Int) (node : ν), AStar.getF G.nodes i = some node →
      ∀ j ∈ G.get_neighbours node, 0 ≤ j ∧ j.toNat < G.nodes.length ∧ j ≠ i)
    (Hcompl : ∀ j : Int, 0 ≤ j → j.toNat < G.nodes.length → j ≠ from_idx →
      j ∈ G.get_neighbours nodeF)
    (hfuel : (G.get_neighbours nodeF).length + 1 < fuel)
    (hrf : 1 ≤ rfuel) :
    AStar.solve G fromPt toPt cost_fn fuel rfuel =
      some [toPt, G.get_pos nodeF] := by
  rw [AStar.solve, hfrom]
  simp only [Option.bind_eq_bind, Option.some_bind]
  rw [hto]
  simp only [Option.some_bind]
  have hh0 : AStar.heuristic G from_idx from_idx = some 0 := by
    rw [AStar.heuristic, hnF]
    simp only [Option.bind_eq_bind, Option.some_bind, Option.pure_def,
      Option.some.injEq]
    exact hdd
  rw [hh0]
  simp only [Option.some_bind]
  obtain ⟨bs0, hbs0⟩ : ∃ q, AStar.heuristic G from_idx to_idx = some q := by
    rw [AStar.heuristic, hnF]
    simp only [Option.bind_eq_bind, Option.some_bind]
    rw [hnT]
    simp only [Option.some_bind, Option.pure_def]
    exact ⟨_, rfl⟩
  rw [hbs0]
  simp only [Option.some_bind]
  have hfb := getFA_bounds hnF
  refine solveLoop_seed G cost_fn c hcfn hc0 hclt from_idx to_idx toPt nodeF
    nodeT hnF hnT hne Hnodes Hcompl rfuel hrf fuel _ rfl ?_ ?_ ?_ ?_ hfuel
  · show (AStar.setF (List.replicate G.nodes.length (-1 : Int)) from_idx
      from_idx).length = G.nodes.length
    rw [setF_length, List.length_replicate]
  · show (AStar.setF (List.replicate G.nodes.length (1000000 : ℚ)) from_idx
      0).length = G.nodes.length
    rw [setF_length, List.length_replicate]
  · intro j h1 h2
    show AStar.getF (AStar.setF (List.replicate G.nodes.length (1000000 : ℚ))
      from_idx 0) j = some (if j = from_idx then (0 : ℚ) else 1000000)
    by_cases hjf : j = from_idx
    · rw [if_pos hjf, hjf]
      refine getF_setF_self 0 hfb.1 ?_
      rw [List.length_replicate]
      exact hfb.2
    · rw [if_neg hjf, getF_setF_ne (0 : ℚ) hjf]
      obtain ⟨v, hv⟩ := getFA_some (List.replicate G.nodes.length
        (1000000 : ℚ)) j h1 (by rw [List.length_replicate]; exact h2)
      rw [hv, getF_replicate_any hv]
  · show AStar.getF (AStar.setF (List.replicate G.nodes.length (-1 : Int))
      from_idx from_idx) from_idx = some from_idx
    refine getF_setF_self from_idx hfb.1 ?_
    rw [List.length_replicate]
    exact hfb.2

/-- Witness for the amended C5 at the complete two-node graph: `A = 0`
snaps to node 0 and `B = 5/4` snaps to node 1, and `solve` returns
`[5/4, 0]` — reversed, it runs from node 0's position to the raw query
point `5/4`. -/
theorem claim_C5_amended_witness :
    AStar.solve (AStar.lineGraph AStar.twoNodes) 0 (5 / 4) (fun _ _ => 1)
      3 1 = some [5 / 4, 0] := by
  refine claim_C5_amended (AStar.lineGraph AStar.twoNodes) 0 (5 / 4)
    (fun _ _ => 1) 1 3 1 0 1 ⟨0, [1]⟩ ⟨1, [0]⟩ (fun _ _ => rfl) (by decide)
    (by decide) (by decide) (by decide) (by decide) (by decide) (by decide)
    (by decide) ?_ ?_ (by decide) (by decide)
  · intro i node hload j hj
    obtain ⟨hi0, hilt⟩ := getFA_bounds hload
    have hlen2 : (AStar.lineGraph AStar.twoNodes).nodes.length = 2 := by
      decide
    rw [hlen2] at hilt
    have hi01 : i = 0 ∨ i = 1 := by omega
    rcases hi01 with rfl | rfl
    · have hv : AStar.getF (AStar.lineGraph AStar.twoNodes).nodes 0 =
          some (⟨0, [1]⟩ : AStar.LineNode) := by decide
      rw [hv] at hload
      obtain rfl := Option.some.inj hload
      have hj1 : j = 1 := by
        simpa [AStar.lineGraph] using hj
      subst hj1
      refine ⟨by decide, by decide, by decide⟩
    · have hv : AStar.getF (AStar.lineGraph AStar.twoNodes).nodes 1 =
          some (⟨1, [0]⟩ : AStar.LineNode) := by decide
      rw [hv] at hload
      obtain rfl := Option.some.inj hload
      have hj1 : j = 0 := by
        simpa [AStar.lineGraph] using hj
      subst hj1
      refine ⟨by decide, by decide, by decide⟩
  · intro j h1 h2 h3
    have hlen2 : (AStar.lineGraph AStar.twoNodes).nodes.length = 2 := by
      decide
    rw [hlen2] at h2
    have hj1 : j = 1 := by omega
    subst hj1
    decide

end ConcreteEvaluations
